import Mathlib

/-!
Verification of the oat-tools Markdown utilities (references, captions,
word counting) against their natural-language specification.

Text is modelled as `List Char` (named `Str` below).  Python string
operations (`split`, `splitlines`, `strip`, regex scans) are translated
into structurally recursive Lean functions; positions are character
offsets, matching the pure-ASCII inputs the tool handles.  The regular
expressions of the source are simple enough that each one is rendered as
an explicit deterministic scanner with the same semantics (leftmost,
non-overlapping matches; greedy or lazy exactly where the pattern is).
Fallible code (`raise ValueError`) is modelled with `Except Str`.
-/

set_option autoImplicit false

abbrev Str := List Char

/-- Shorthand to turn a string literal into the `List Char` model. -/
def str (s : String) : Str := s.toList

/-- Python whitespace (`str.split` / `str.strip` semantics, ASCII range). -/
def isSpace (c : Char) : Bool :=
  c = ' ' || c = '\t' || c = '\n' || c = '\r' || c = '\x0b' || c = '\x0c'

/-- Python line boundary characters (`str.splitlines`). `\r\n` is handled
as a single boundary by `splitlinesAux`. -/
def isLB (c : Char) : Bool :=
  c = '\n' || c = '\r' || c = '\x0b' || c = '\x0c' ||
  c = Char.ofNat 0x1c || c = Char.ofNat 0x1d || c = Char.ofNat 0x1e ||
  c = Char.ofNat 0x85 || c = Char.ofNat 0x2028 || c = Char.ofNat 0x2029

/-- Word characters of the `\w` regex class (ASCII range). -/
def isWordChar (c : Char) : Bool :=
  c.isAlpha || c.isDigit || c = '_'

/-- The `[\w-]` character class used by reference-id patterns. -/
def wordHyphen (c : Char) : Bool :=
  isWordChar c || c = '-'

/-- Helper of `pySplit`: `cur` holds the current word, reversed. -/
def pySplitAux (cur : Str) : Str → List Str
  | [] => if cur = [] then [] else [cur.reverse]
  | c :: rest =>
    if isSpace c then
      if cur = [] then pySplitAux [] rest else cur.reverse :: pySplitAux [] rest
    else pySplitAux (c :: cur) rest

/-- Python `str.split()` with no argument: split on whitespace runs,
dropping empty pieces. -/
def pySplit (s : Str) : List Str := pySplitAux [] s

/-- Python `str.strip()`: drop whitespace from both ends. -/
def pyStrip (s : Str) : Str :=
  ((s.dropWhile isSpace).reverse.dropWhile isSpace).reverse

/-- Helper of `splitlines`: `cur` holds the current line, reversed; a
`\r\n` pair counts as a single boundary. -/
def splitlinesAux (cur : Str) : Str → List Str
  | [] => [cur.reverse]
  | [c] => if isLB c then [cur.reverse] else [(c :: cur).reverse]
  | c :: c2 :: rest =>
    if c = '\r' ∧ c2 = '\n' then
      cur.reverse :: (if rest = [] then [] else splitlinesAux [] rest)
    else if isLB c then cur.reverse :: splitlinesAux [] (c2 :: rest)
    else splitlinesAux (c :: cur) (c2 :: rest)

/-- Python `str.splitlines()`. -/
def splitlines (s : Str) : List Str :=
  match s with
  | [] => []
  | _ => splitlinesAux [] s

/-- Python `"\n".join(lines)`. -/
def joinNl : List Str → Str
  | [] => []
  | [l] => l
  | l :: ls => l ++ '\n' :: joinNl ls

/-- Python `s.rstrip("\n")`: drop newline characters from the right end. -/
def rstripNl (s : Str) : Str :=
  (s.reverse.dropWhile (fun c => c = '\n')).reverse

/-- Python `int(...)` on a digit string. -/
def natOfDigits (ds : Str) : Nat :=
  ds.foldl (fun n c => n * 10 + (c.toNat - '0'.toNat)) 0

/-! ## references.py: line classification -/

/-- `extract_id(full_reference_line)`: split the line on whitespace and
match the first word against the prefix pattern `\[\^([\w-]+)\]:`
(`re.match`, so trailing text after the `]:` inside the word is allowed).
Returns the captured id or raises `ValueError`. -/
def extract_id (full_reference_line : Str) : Except Str Str :=
  match pySplit full_reference_line with
  | [] => .error (str "The reference line is empty or does not contain a valid ID.")
  | first_word :: _ =>
    match first_word with
    | '[' :: '^' :: rest =>
      let run := rest.takeWhile wordHyphen
      if run = [] then .error (str "Invalid reference ID format.")
      else
        match rest.drop run.length with
        | ']' :: ':' :: _ => .ok run
        | _ => .error (str "Invalid reference ID format.")
    | _ => .error (str "Invalid reference ID format.")

/-- The loose token test performed by `is_reference_line`:
`first_word.startswith("[^") and first_word.endswith("]:")`. -/
def declOpener (w : Str) : Bool :=
  ([ '[', '^' ].isPrefixOf w) && ([ ']', ':' ].isSuffixOf w)

/-- `is_reference_line(line)`: true iff the first whitespace-delimited
token starts with `[^` and ends with `]:`; raises `ValueError` when such
a token is the only token on the line. -/
def is_reference_line (line : Str) : Except Str Bool :=
  match pySplit line with
  | [] => .ok false
  | first_word :: rest =>
    if rest.isEmpty && declOpener first_word then
      .error (str "A line with a reference does not contain any text after the ID.")
    else if declOpener first_word then .ok true
    else .ok false

/-! ## references.py: Reference and ReferenceCollection -/

/-- `Reference` dataclass.  `reference_id` is the field assigned by
`__post_init__` via `extract_id`; constructions that go through
`mk_reference` below keep it consistent with the line. -/
structure Reference where
  full_reference_line : Str
  first_appearance_pos : Option Nat
  number_of_appearances : Nat
  reference_id : Str
  deriving DecidableEq

/-- `Reference.__init__` + `__post_init__`. -/
def mk_reference (full_reference_line : Str) : Except Str Reference :=
  (extract_id full_reference_line).map fun id =>
    { full_reference_line := full_reference_line
      first_appearance_pos := none
      number_of_appearances := 0
      reference_id := id }

/-- `Reference.record_appearance(position)`: keep the smallest seen
position and increment the appearance counter. -/
def Reference.record_appearance (r : Reference) (position : Nat) : Reference :=
  let pos :=
    match r.first_appearance_pos with
    | none => some position
    | some p => if p > position then some position else some p
  { r with first_appearance_pos := pos
           number_of_appearances := r.number_of_appearances + 1 }

/-- The sort key of `get_ordered_by_pos`:
`ref.first_appearance_pos or math.inf`.  Because Python `or` tests
truthiness, position `0` falls through to `math.inf` exactly like `None`;
`none` here plays the role of `math.inf`. -/
def sortKey (r : Reference) : Option Nat :=
  match r.first_appearance_pos with
  | none => none
  | some p => if p = 0 then none else some p

/-- Order on sort keys, with `none` as plus infinity. -/
def keyLE : Option Nat → Option Nat → Bool
  | some a, some b => a ≤ b
  | some _, none => true
  | none, some _ => false
  | none, none => true

/-- Comparison used by the `sorted(...)` call of `get_ordered_by_pos`. -/
def refLE (a b : Reference) : Bool := keyLE (sortKey a) (sortKey b)

/-- Stable insertion used to model Python `sorted` (a stable sort; any
stable sort produces the same output for a total preorder). -/
def orderedInsertBy {α : Type} (le : α → α → Bool) (a : α) : List α → List α
  | [] => [a]
  | b :: l => if le a b then a :: b :: l else b :: orderedInsertBy le a l

/-- Stable sort used to model Python `sorted`. -/
def insertionSortBy {α : Type} (le : α → α → Bool) : List α → List α
  | [] => []
  | a :: l => orderedInsertBy le a (insertionSortBy le l)

/-- `ReferenceCollection.add_reference(full_reference_line)`. -/
def add_reference (references : List Reference) (full_reference_line : Str) :
    Except Str (List Reference) := do
  let reference_id ← extract_id full_reference_line
  if references.any (fun r => r.reference_id == reference_id) then
    .error (str "Reference with this ID already exists.")
  else
    let r ← mk_reference full_reference_line
    pure (references ++ [r])

/-- `ReferenceCollection.get_ordered_by_pos(only_appearing)`. -/
def get_ordered_by_pos (only_appearing : Bool) (references : List Reference) :
    List Reference :=
  let sorted := insertionSortBy refLE references
  if only_appearing then
    sorted.filter (fun r => decide (0 < r.number_of_appearances))
  else sorted

/-- Claim C1, failing input: a cited reference whose first appearance is
at character offset 0. -/
def refPosZero : Reference :=
  { full_reference_line := str "[^a]: Alpha."
    first_appearance_pos := some 0
    number_of_appearances := 1
    reference_id := str "a" }

/-- Claim C1, failing input: a cited reference first appearing at offset 5. -/
def refPosFive : Reference :=
  { full_reference_line := str "[^b]: Beta."
    first_appearance_pos := some 5
    number_of_appearances := 1
    reference_id := str "b" }

/-! ## references.py: MarkdownFile -/

/-- Left-to-right scan for the non-overlapping occurrences of the literal
pattern `pat` in the text (the `re.finditer` calls of
`_count_appearances` use the literal pattern `\[\^` + escaped id + `\]`).
`i` is the current offset; a non-zero `skip` means the scanner is inside
a previous match and consumes characters without testing. -/
def findOccAux (pat : Str) : Str → Nat → Nat → List Nat
  | [], _, _ => []
  | _ :: rest, i, Nat.succ k => findOccAux pat rest (i + 1) k
  | c :: rest, i, 0 =>
    if pat.isPrefixOf (c :: rest) then
      i :: findOccAux pat rest (i + 1) (pat.length - 1)
    else findOccAux pat rest (i + 1) 0

/-- All match start offsets of the literal `pat` in `text`. -/
def findOccurrences (pat text : Str) : List Nat := findOccAux pat text 0 0

/-- The citation pattern of a given id: the literal `[^id]`. -/
def citePat (id : Str) : Str := '[' :: '^' :: (id ++ [ ']' ])

/-- One reference inside `MarkdownFile._count_appearances`: reset the
counters, then record every occurrence of `[^id]` in the body text. -/
def count_appearances (body_text : Str) (r : Reference) : Reference :=
  let r0 : Reference :=
    { r with number_of_appearances := 0, first_appearance_pos := none }
  (findOccurrences (citePat r.reference_id) body_text).foldl
    Reference.record_appearance r0

/-- `MarkdownFile._load_references`: classify each line, feeding
declaration lines (stripped) into the collection and keeping every other
line, in order, as a body line. -/
def loadLines : List Str → List Str → List Reference →
    Except Str (List Str × List Reference)
  | [], body, refs => .ok (body, refs)
  | line :: rest, body, refs => do
    let b ← is_reference_line line
    if b then do
      let refs2 ← add_reference refs (pyStrip line)
      loadLines rest body refs2
    else loadLines rest (body ++ [line]) refs

/-- The state of a loaded `MarkdownFile` (the constant `file_path` field
is not modelled; see `materialize` for where it is used). -/
structure MarkdownFile where
  body_lines : List Str
  references : List Reference
  deriving DecidableEq

/-- `MarkdownFile.__init__` with `auto_load=True`: `_load_references`
followed by `_count_appearances`. -/
def loadMarkdownFile (content : Str) : Except Str MarkdownFile := do
  let (body, refs) ← loadLines (splitlines content) [] []
  pure { body_lines := body
         references := refs.map (count_appearances (joinNl body)) }

/-- The body text scanned for citations: `"\n".join(self.body_lines)`. -/
def bodyTextOf (m : MarkdownFile) : Str := joinNl m.body_lines

/-- The ids declared in the ledger. -/
def ledgerIds (m : MarkdownFile) : List Str :=
  m.references.map Reference.reference_id

/-- `MarkdownFile._get_final_content`. -/
def get_final_content (m : MarkdownFile) : Str :=
  let body := bodyTextOf m
  let references := get_ordered_by_pos true m.references
  let reference_lines := references.map Reference.full_reference_line
  if reference_lines = [] then body
  else rstripNl body ++ '\n' :: '\n' :: (joinNl reference_lines ++ [ '\n' ])

/-- Load a document and compute the content `fix_references` writes. -/
def loadFinal (content : Str) : Except Str Str :=
  (loadMarkdownFile content).map get_final_content

set_option linter.unusedVariables false in
/-- `MarkdownFile._materialize(content, md_path)`, modelled as the pair
(path written, content written).  The translation keeps both assignments
of the source: the `md_path` default is computed and then unconditionally
overwritten with `self.file_path`. -/
def materialize (file_path : Str) (content : Str) (md_path : Option Str) :
    Str × Str :=
  let p := match md_path with | none => file_path | some q => q
  let p := file_path
  (p, content)

/-! ## references.py: orphan and unused reports -/

/-- Orphan report row (constant `file_path` field omitted). -/
structure OrphanRefRecord where
  reference_id : Str
  number_of_appearances : Nat
  deriving DecidableEq

/-- Unused report row (constant `file_path` field omitted). -/
structure UnusedRefRecord where
  reference_id : Str
  number_of_appearances : Nat
  deriving DecidableEq

/-- `orphan_references[ref_id] += 1` on a `defaultdict(int)`: increment
in place if present, else append with count 1 (Python dicts preserve
insertion order). -/
def bump : List (Str × Nat) → Str → List (Str × Nat)
  | [], i => [(i, 1)]
  | (k, v) :: rest, i =>
    if k = i then (k, v + 1) :: rest else (k, v) :: bump rest i

/-- The tally loop of `get_orphan_references`: every matched citation id
that is not among the existing ids is counted. -/
def orphanTally (existing : List Str) :
    List (Str × Nat) → List Str → List (Str × Nat)
  | acc, [] => acc
  | acc, i :: rest =>
    if i ∈ existing then orphanTally existing acc rest
    else orphanTally existing (bump acc i) rest

/-- Left-to-right scan of the body text for the generic citation pattern
`\[\^([\w-]+)\]`, returning the captured ids of the non-overlapping
matches in order.  A non-zero `skip` means the scanner is inside a
previous match. -/
def citationIdsGo : Str → Nat → List Str
  | [], _ => []
  | _ :: rest, Nat.succ k => citationIdsGo rest k
  | '[' :: '^' :: rest2, 0 =>
    let run := rest2.takeWhile wordHyphen
    match rest2.drop run.length with
    | ']' :: _ =>
      if run = [] then citationIdsGo ('^' :: rest2) 0
      else run :: citationIdsGo ('^' :: rest2) (run.length + 2)
    | _ => citationIdsGo ('^' :: rest2) 0
  | _ :: rest, 0 => citationIdsGo rest 0

/-- The citation ids found in a body text, in match order. -/
def citationIds (body_text : Str) : List Str := citationIdsGo body_text 0

/-- `MarkdownFile.get_orphan_references`. -/
def get_orphan_references (m : MarkdownFile) : List OrphanRefRecord :=
  (orphanTally (ledgerIds m) [] (citationIds (bodyTextOf m))).map
    (fun p => { reference_id := p.1, number_of_appearances := p.2 })

/-- `MarkdownFile.get_unused_references`. -/
def get_unused_references (m : MarkdownFile) : List UnusedRefRecord :=
  ((get_ordered_by_pos false m.references).filter
      (fun r => r.number_of_appearances == 0)).map
    (fun r => { reference_id := r.reference_id
                number_of_appearances := r.number_of_appearances })

/-- Claim C1 (code_bug): the claim says an entry with
`first_appearance_pos = 0` sorts before every entry with a positive
position, but `get_ordered_by_pos` evaluates `first_appearance_pos or
math.inf`, and Python `or` treats the integer 0 as falsy, so the entry
at position 0 is given the key plus-infinity and sorts last. -/
theorem ref_pos_zero_sorted_last :
    refPosZero.first_appearance_pos = some 0 ∧
    refPosFive.first_appearance_pos = some 5 ∧
    get_ordered_by_pos false [refPosZero, refPosFive] = [refPosFive, refPosZero] :=
  ⟨rfl, rfl, rfl⟩

/-- Claim C2 (code_bug), failing input: a document whose first citation
sits at offset 0 of the body text.  The claim says the declaration block
of the fixed content lists cited references in ascending first-appearance
order, so `[^a]` (offset 0) should come before `[^b]` (offset 10); the
code keys the sort on `first_appearance_pos or math.inf`, which maps the
offset 0 to plus infinity, so the `[^b]` declaration is written first. -/
theorem final_content_pos_zero_order :
    loadFinal (str "[^a] cite [^b]\n\n[^a]: Alpha.\n[^b]: Beta.") =
      .ok (str "[^a] cite [^b]\n\n[^b]: Beta.\n[^a]: Alpha.\n") := rfl

/-- Claim C3 (code_bug): `fix` is not idempotent.  On a document whose
body ends with a blank line and where no declaration survives, the first
fix writes the body joined as-is (keeping the trailing newline), but
re-loading drops the final empty line, so the second fix writes one byte
less.  Here the first fix outputs `"x\n"` while fixing that output
produces `"x"`. -/
theorem fix_not_idempotent_trailing_blank :
    loadFinal (str "x\n\n[^a]: Unused reference.") = .ok (str "x\n") ∧
    loadFinal (str "x\n") = .ok (str "x") ∧
    str "x" ≠ str "x\n" :=
  ⟨rfl, rfl, by decide⟩

/-- Claim C9 (confirmed): `_materialize` computes a default for its
`md_path` parameter and then unconditionally rebinds it to
`self.file_path`, so whatever alternate destination is supplied, the
content is written to the original path. -/
theorem materialize_writes_original_path (file_path content : Str)
    (md_path : Option Str) :
    materialize file_path content md_path = (file_path, content) := by
  cases md_path <;> rfl

/-! ## Claim C4: record_appearance algebra -/

/-- Combine an optional current minimum with an optional new minimum. -/
def mergeMin : Option Nat → Option Nat → Option Nat
  | none, o => o
  | some p, none => some p
  | some p, some q => some (min p q)

/-- The minimum of a list of positions, `none` for the empty list. -/
def minimumList : List Nat → Option Nat
  | [] => none
  | a :: l => mergeMin (some a) (minimumList l)

theorem mergeMin_none_right (x : Option Nat) : mergeMin x none = x := by
  cases x <;> rfl

theorem mergeMin_assoc (x y z : Option Nat) :
    mergeMin (mergeMin x y) z = mergeMin x (mergeMin y z) := by
  cases x <;> cases y <;> cases z <;> simp [mergeMin, Nat.min_assoc]

theorem mergeMin_comm (x y : Option Nat) : mergeMin x y = mergeMin y x := by
  cases x <;> cases y <;> simp [mergeMin, Nat.min_comm]

theorem record_appearance_pos (r : Reference) (a : Nat) :
    (r.record_appearance a).first_appearance_pos =
      mergeMin r.first_appearance_pos (some a) := by
  cases h : r.first_appearance_pos with
  | none => simp [Reference.record_appearance, mergeMin, h]
  | some p =>
    simp only [Reference.record_appearance, mergeMin, h]
    by_cases hp : p > a
    · simp [hp, Nat.min_eq_right (Nat.le_of_lt hp)]
    · simp [hp, Nat.min_eq_left (Nat.le_of_not_lt hp)]

theorem foldl_record_count (l : List Nat) (r : Reference) :
    (l.foldl Reference.record_appearance r).number_of_appearances =
      r.number_of_appearances + l.length := by
  induction l generalizing r with
  | nil => rfl
  | cons a t ih =>
    simp only [List.foldl_cons, ih, List.length_cons]
    show (r.record_appearance a).number_of_appearances + t.length = _
    simp [Reference.record_appearance]
    omega

theorem foldl_record_pos (l : List Nat) (r : Reference) :
    (l.foldl Reference.record_appearance r).first_appearance_pos =
      mergeMin r.first_appearance_pos (minimumList l) := by
  induction l generalizing r with
  | nil => simp [minimumList, mergeMin_none_right]
  | cons a t ih =>
    simp only [List.foldl_cons, ih, record_appearance_pos, minimumList]
    rw [mergeMin_assoc]

theorem minimumList_min (l : List Nat) (p : Nat) (h : minimumList l = some p) :
    p ∈ l ∧ ∀ q ∈ l, p ≤ q := by
  induction l generalizing p with
  | nil => simp [minimumList] at h
  | cons a t ih =>
    simp only [minimumList] at h
    cases ht : minimumList t with
    | none =>
      rw [ht, mergeMin_none_right] at h
      cases h
      have : t = [] := by
        cases t with
        | nil => rfl
        | cons b u => simp only [minimumList] at ht; cases hu : minimumList u <;>
            rw [hu] at ht <;> simp [mergeMin] at ht
      subst this
      simp
    | some m =>
      rw [ht] at h
      simp only [mergeMin] at h
      cases h
      rcases ih m ht with ⟨hm, hb⟩
      constructor
      · rcases Nat.le_total a m with hle | hle
        · simp [Nat.min_eq_left hle]
        · rw [Nat.min_eq_right hle]; exact List.mem_cons_of_mem _ hm
      · intro q hq
        rcases List.mem_cons.mp hq with rfl | hq
        · exact Nat.min_le_left _ _
        · exact Nat.le_trans (Nat.min_le_right _ _) (hb q hq)

theorem minimumList_perm {l l' : List Nat} (h : l.Perm l') :
    minimumList l = minimumList l' := by
  induction h with
  | nil => rfl
  | cons a _ ih => simp [minimumList, ih]
  | swap a b t =>
    simp only [minimumList]
    rw [← mergeMin_assoc, ← mergeMin_assoc, mergeMin_comm (some b) (some a)]
  | trans _ _ ih1 ih2 => exact ih1.trans ih2

/-- Claim C4 (confirmed): starting from a fresh reference, recording any
finite list of positions makes `number_of_appearances` the number of
recordings and `first_appearance_pos` the minimum recorded position
(none when nothing was recorded), independently of the recording order. -/
theorem record_citation_order_independent (r : Reference)
    (h1 : r.first_appearance_pos = none) (h2 : r.number_of_appearances = 0)
    (l : List Nat) :
    (l.foldl Reference.record_appearance r).number_of_appearances = l.length ∧
    (∀ p, (l.foldl Reference.record_appearance r).first_appearance_pos = some p →
      p ∈ l ∧ ∀ q ∈ l, p ≤ q) ∧
    ((l.foldl Reference.record_appearance r).first_appearance_pos = none ↔ l = []) ∧
    (∀ l' : List Nat, l.Perm l' →
      (l'.foldl Reference.record_appearance r).number_of_appearances =
        (l.foldl Reference.record_appearance r).number_of_appearances ∧
      (l'.foldl Reference.record_appearance r).first_appearance_pos =
        (l.foldl Reference.record_appearance r).first_appearance_pos) := by
  refine ⟨?_, ?_, ?_, ?_⟩
  · rw [foldl_record_count, h2, Nat.zero_add]
  · intro p hp
    rw [foldl_record_pos, h1] at hp
    exact minimumList_min l p hp
  · rw [foldl_record_pos, h1]
    show minimumList l = none ↔ l = []
    cases l with
    | nil => simp [minimumList]
    | cons a t =>
      simp only [minimumList]
      cases ht : minimumList t <;> simp [mergeMin]
  · intro l' hperm
    refine ⟨?_, ?_⟩
    · rw [foldl_record_count, foldl_record_count, hperm.length_eq]
    · rw [foldl_record_pos, foldl_record_pos, minimumList_perm hperm]

/-- Fresh reference used to instantiate claim C4 at its example input. -/
def refFresh : Reference :=
  { full_reference_line := str "[^r]: Some source."
    first_appearance_pos := none
    number_of_appearances := 0
    reference_id := str "r" }

/-- Witness for claim C4 at the example of the specification: recording
the positions 100, 200, 50 yields count 3 and first position 50. -/
theorem record_citation_order_independent_witness :
    (([100, 200, 50] : List Nat).foldl Reference.record_appearance
        refFresh).number_of_appearances = 3 ∧
    (([100, 200, 50] : List Nat).foldl Reference.record_appearance
        refFresh).first_appearance_pos = some 50 := by
  have h := record_citation_order_independent refFresh rfl rfl [100, 200, 50]
  exact ⟨h.1, rfl⟩


/-! ## Claim C5: is_reference_line classification -/

/-- The first whitespace-delimited token of a line (empty when the line
has no non-whitespace character). -/
def firstTok (line : Str) : Str :=
  (line.dropWhile isSpace).takeWhile (fun c => !isSpace c)

/-- What follows the first whitespace-delimited token of a line. -/
def afterTok (line : Str) : Str :=
  (line.dropWhile isSpace).dropWhile (fun c => !isSpace c)

/-- The declaration-token pattern as the claim words it: the token is,
exactly and in full, `[^` followed by one or more word-or-hyphen
characters followed by `]:`. -/
def specDeclToken (w : Str) : Bool :=
  match w with
  | '[' :: '^' :: rest =>
    let run := rest.takeWhile wordHyphen
    (!run.isEmpty) && (rest.drop run.length == [ ']', ':' ])
  | _ => false

theorem dropWhile_head_false {p : Char → Bool} :
    ∀ {x : Str} {d : Char} {ds : Str}, x.dropWhile p = d :: ds → p d = false := by
  intro x
  induction x with
  | nil => intro d ds h; simp [List.dropWhile] at h
  | cons c t ih =>
    intro d ds h
    by_cases hc : p c
    · rw [List.dropWhile_cons, if_pos hc] at h
      exact ih h
    · rw [List.dropWhile_cons, if_neg hc] at h
      cases h
      exact Bool.of_not_eq_true hc

theorem pySplitAux_word (t : Str) :
    ∀ cur : Str, cur ≠ [] →
      pySplitAux cur t =
        (cur.reverse ++ t.takeWhile (fun c => !isSpace c)) ::
          pySplit (t.dropWhile (fun c => !isSpace c)) := by
  induction t with
  | nil =>
    intro cur hcur
    simp [pySplitAux, pySplit, hcur]
  | cons d t' ih =>
    intro cur hcur
    by_cases hd : isSpace d
    · have h1 : pySplitAux cur (d :: t') = cur.reverse :: pySplitAux [] t' := by
        simp [pySplitAux, hd, hcur]
      have h2 : (d :: t').takeWhile (fun c => !isSpace c) = [] := by
        simp [List.takeWhile_cons, hd]
      have h3 : (d :: t').dropWhile (fun c => !isSpace c) = d :: t' := by
        simp [List.dropWhile_cons, hd]
      have h4 : pySplitAux [] t' = pySplit (d :: t') := by
        simp [pySplit, pySplitAux, hd]
      rw [h1, h2, h3, h4, List.append_nil]
    · have h1 : pySplitAux cur (d :: t') = pySplitAux (d :: cur) t' := by
        simp [pySplitAux, hd]
      have h2 : (d :: t').takeWhile (fun c => !isSpace c) =
          d :: t'.takeWhile (fun c => !isSpace c) := by
        simp [List.takeWhile_cons, hd]
      have h3 : (d :: t').dropWhile (fun c => !isSpace c) =
          t'.dropWhile (fun c => !isSpace c) := by
        simp [List.dropWhile_cons, hd]
      rw [h1, ih (d :: cur) (by simp), h2, h3]
      simp

theorem pySplit_eq (s : Str) :
    pySplit s =
      if firstTok s = [] then [] else firstTok s :: pySplit (afterTok s) := by
  induction s with
  | nil => simp [pySplit, pySplitAux, firstTok]
  | cons c rest ih =>
    by_cases hc : isSpace c
    · have h1 : pySplit (c :: rest) = pySplit rest := by
        simp [pySplit, pySplitAux, hc]
      have h2 : firstTok (c :: rest) = firstTok rest := by
        simp [firstTok, List.dropWhile_cons, hc]
      have h3 : afterTok (c :: rest) = afterTok rest := by
        simp [afterTok, List.dropWhile_cons, hc]
      rw [h1, h2, h3, ih]
    · have h2 : firstTok (c :: rest) =
          c :: rest.takeWhile (fun c => !isSpace c) := by
        simp [firstTok, List.dropWhile_cons, List.takeWhile_cons, hc]
      have h3 : afterTok (c :: rest) =
          rest.dropWhile (fun c => !isSpace c) := by
        simp [afterTok, List.dropWhile_cons, hc]
      have h1 : pySplit (c :: rest) = pySplitAux [c] rest := by
        simp [pySplit, pySplitAux, hc]
      rw [h1, pySplitAux_word rest [c] (by simp), h2, h3]
      simp

theorem firstTok_nil_iff (s : Str) :
    firstTok s = [] ↔ ∀ c ∈ s, isSpace c = true := by
  constructor
  · intro h
    rcases hd : s.dropWhile isSpace with _ | ⟨d, ds⟩
    · exact List.dropWhile_eq_nil_iff.mp hd
    · exfalso
      have hds : isSpace d = false := dropWhile_head_false hd
      rw [firstTok, hd, List.takeWhile_cons] at h
      simp [hds] at h
  · intro h
    have hnil : s.dropWhile isSpace = [] := List.dropWhile_eq_nil_iff.mpr h
    simp [firstTok, hnil]

/-- Claim C5 counterexample: the claim states that `is_reference_line`
returns true only when the first token matches the full declaration
pattern `\[\^[\w-]+\]:`; the code only checks the `[^` prefix and `]:`
suffix, so the token `[^!]:` (whose id character `!` is not a
word-or-hyphen character) is accepted. -/
theorem is_reference_line_loose_counterexample :
    is_reference_line (str "[^!]: x") = .ok true ∧
    firstTok (str "[^!]: x") = str "[^!]:" ∧
    specDeclToken (str "[^!]:") = false :=
  ⟨rfl, rfl, rfl⟩

/-- Claim C5, amended (corrected): `is_reference_line` returns true iff
the first whitespace-delimited token starts with `[^` and ends with `]:`
(no full-pattern check of the id characters) and some non-whitespace
text follows the token; it raises the malformed-input error iff the
first token starts with `[^` and ends with `]:` and nothing but
whitespace follows it. -/
theorem is_reference_line_token_iff (line : Str) :
    (is_reference_line line = .ok true ↔
      (declOpener (firstTok line) = true ∧
        ∃ c ∈ afterTok line, isSpace c = false)) ∧
    ((∃ e, is_reference_line line = .error e) ↔
      (declOpener (firstTok line) = true ∧
        ∀ c ∈ afterTok line, isSpace c = true)) := by
  have hrest : pySplit (afterTok line) = [] ↔
      ∀ c ∈ afterTok line, isSpace c = true := by
    rw [pySplit_eq (afterTok line)]
    by_cases h : firstTok (afterTok line) = []
    · rw [if_pos h]
      exact ⟨fun _ => (firstTok_nil_iff _).mp h, fun _ => rfl⟩
    · rw [if_neg h]
      constructor
      · intro hc; cases hc
      · intro hall; exact absurd ((firstTok_nil_iff _).mpr hall) h
  by_cases h0 : firstTok line = []
  · have hps : pySplit line = [] := by rw [pySplit_eq line, if_pos h0]
    have hval : is_reference_line line = .ok false := by
      simp [is_reference_line, hps]
    have hop : declOpener (firstTok line) = false := by rw [h0]; rfl
    rw [hval]
    constructor
    · constructor
      · intro hc; exact absurd hc (by simp)
      · rintro ⟨ht, -⟩; rw [hop] at ht; exact absurd ht (by simp)
    · constructor
      · rintro ⟨e, he⟩; exact absurd he (by simp)
      · rintro ⟨ht, -⟩; rw [hop] at ht; exact absurd ht (by simp)
  · have hps : pySplit line = firstTok line :: pySplit (afterTok line) := by
      rw [pySplit_eq line, if_neg h0]
    by_cases hop : declOpener (firstTok line) = true
    · by_cases hre : pySplit (afterTok line) = []
      · have hval : is_reference_line line =
            .error (str "A line with a reference does not contain any text after the ID.") := by
          simp [is_reference_line, hps, hre, hop]
        have hall := hrest.mp hre
        rw [hval]
        constructor
        · constructor
          · intro hc; exact absurd hc (by simp)
          · rintro ⟨-, c, hc, hcs⟩
            rw [hall c hc] at hcs; exact absurd hcs (by simp)
        · constructor
          · intro _; exact ⟨hop, hall⟩
          · intro _; exact ⟨_, rfl⟩
      · have hval : is_reference_line line = .ok true := by
          rcases hx : pySplit (afterTok line) with _ | ⟨a, t⟩
          · exact absurd hx hre
          · simp [is_reference_line, hps, hx, hop]
        have hnall : ¬ ∀ c ∈ afterTok line, isSpace c = true := fun hall =>
          hre (hrest.mpr hall)
        rw [hval]
        constructor
        · constructor
          · intro _
            refine ⟨hop, ?_⟩
            by_contra hno
            apply hnall
            intro c hc
            rcases Bool.eq_false_or_eq_true (isSpace c) with ht | hf
            · exact ht
            · exact absurd ⟨c, hc, hf⟩ hno
          · intro _; rfl
        · constructor
          · rintro ⟨e, he⟩; exact absurd he (by simp)
          · rintro ⟨-, hall⟩; exact absurd hall hnall
    · have hopf : declOpener (firstTok line) = false :=
        Bool.eq_false_iff.mpr hop
      have hval : is_reference_line line = .ok false := by
        simp [is_reference_line, hps, hopf]
      rw [hval]
      constructor
      · constructor
        · intro hc; exact absurd hc (by simp)
        · rintro ⟨ht, -⟩; rw [hopf] at ht; exact absurd ht (by simp)
      · constructor
        · rintro ⟨e, he⟩; exact absurd he (by simp)
        · rintro ⟨ht, -⟩; rw [hopf] at ht; exact absurd ht (by simp)

/-- Witness for the amended claim C5 at a well-formed declaration line. -/
theorem is_reference_line_token_iff_witness :
    is_reference_line (str "[^a]: Some text.") = .ok true :=
  ((is_reference_line_token_iff (str "[^a]: Some text.")).1).mpr (by decide)


/-! ## Claim C6: orphan and unused reports -/

/-- First-seen-order deduplication, skipping the ids in `seen`. -/
def dedupFSAux (seen : List Str) : List Str → List Str
  | [] => []
  | i :: rest =>
    if i ∈ seen then dedupFSAux seen rest
    else i :: dedupFSAux (i :: seen) rest

/-- First-seen-order deduplication of a list of ids. -/
def dedupFS (l : List Str) : List Str := dedupFSAux [] l

/-- The body-citation ids that are not declared in the ledger, in match
order with repetitions. -/
def orphanCandidateIds (m : MarkdownFile) : List Str :=
  (citationIds (bodyTextOf m)).filter (fun i => decide (i ∉ ledgerIds m))

/-- The keys of a tally, in insertion order. -/
def keysOf (acc : List (Str × Nat)) : List Str := acc.map Prod.fst

/-- The count stored for a key, 0 when absent. -/
def lookup0 (acc : List (Str × Nat)) (i : Str) : Nat :=
  match acc.find? (fun p => decide (p.1 = i)) with
  | some p => p.2
  | none => 0

theorem keysOf_bump (acc : List (Str × Nat)) (i : Str) :
    keysOf (bump acc i) =
      if i ∈ keysOf acc then keysOf acc else keysOf acc ++ [i] := by
  induction acc with
  | nil => simp [bump, keysOf]
  | cons p rest ih =>
    rcases p with ⟨k, v⟩
    by_cases hk : k = i
    · subst hk
      simp [bump, keysOf]
    · have h1 : bump ((k, v) :: rest) i = (k, v) :: bump rest i := by
        simp [bump, hk]
      have h3 : keysOf ((k, v) :: rest) = k :: keysOf rest := rfl
      rw [h1, show keysOf ((k, v) :: bump rest i) = k :: keysOf (bump rest i)
        from rfl, h3, ih]
      have hik : ¬ (i = k) := fun h => hk h.symm
      by_cases hm : i ∈ keysOf rest
      · simp [hm, List.mem_cons]
      · simp [hm, List.mem_cons, hik]

theorem lookup0_bump (acc : List (Str × Nat)) (i j : Str) :
    lookup0 (bump acc i) j = lookup0 acc j + (if j = i then 1 else 0) := by
  induction acc with
  | nil =>
    by_cases h : j = i
    · subst h; simp [bump, lookup0, List.find?]
    · have hij : ¬ (i = j) := fun hh => h hh.symm
      simp [bump, lookup0, List.find?, h, hij]
  | cons p rest ih =>
    rcases p with ⟨k, v⟩
    by_cases hk : k = i
    · subst hk
      have hbump : bump ((k, v) :: rest) k = (k, v + 1) :: rest := by
        simp [bump]
      by_cases hj : j = k
      · subst hj; simp [hbump, lookup0, List.find?]
      · have hkj : ¬ (k = j) := fun hh => hj hh.symm
        simp [hbump, lookup0, List.find?, hkj, hj]
    · have hbump : bump ((k, v) :: rest) i = (k, v) :: bump rest i := by
        simp [bump, hk]
      rw [hbump]
      by_cases hkj : k = j
      · subst hkj
        have hki : ¬ (k = i) := hk
        simp [lookup0, List.find?, hki]
      · simpa [lookup0, List.find?, hkj] using ih

theorem nodup_keysOf_bump (acc : List (Str × Nat)) (i : Str)
    (h : (keysOf acc).Nodup) : (keysOf (bump acc i)).Nodup := by
  rw [keysOf_bump]
  by_cases hm : i ∈ keysOf acc
  · simpa [hm] using h
  · rw [if_neg hm]
    refine List.Nodup.append h (List.nodup_singleton i) ?_
    intro x hx hxm
    rcases List.mem_singleton.mp hxm with rfl
    exact hm hx

theorem dedupFSAux_congr :
    ∀ (r s1 s2 : List Str), (∀ x, x ∈ s1 ↔ x ∈ s2) →
      dedupFSAux s1 r = dedupFSAux s2 r := by
  intro r
  induction r with
  | nil => intro s1 s2 _; rfl
  | cons i rest ih =>
    intro s1 s2 h
    by_cases hm : i ∈ s1
    · rw [show dedupFSAux s1 (i :: rest) = dedupFSAux s1 rest by
        simp [dedupFSAux, hm]]
      rw [show dedupFSAux s2 (i :: rest) = dedupFSAux s2 rest by
        simp [dedupFSAux, (h i).mp hm]]
      exact ih s1 s2 h
    · have hm2 : ¬ i ∈ s2 := fun hx => hm ((h i).mpr hx)
      rw [show dedupFSAux s1 (i :: rest) = i :: dedupFSAux (i :: s1) rest by
        simp [dedupFSAux, hm]]
      rw [show dedupFSAux s2 (i :: rest) = i :: dedupFSAux (i :: s2) rest by
        simp [dedupFSAux, hm2]]
      rw [ih (i :: s1) (i :: s2) (fun x => by simp [List.mem_cons, h x])]

theorem mem_dedupFSAux :
    ∀ (r s : List Str) (x : Str), x ∈ dedupFSAux s r ↔ (x ∈ r ∧ x ∉ s) := by
  intro r
  induction r with
  | nil => intro s x; simp [dedupFSAux]
  | cons i rest ih =>
    intro s x
    by_cases hm : i ∈ s
    · rw [show dedupFSAux s (i :: rest) = dedupFSAux s rest by
        simp [dedupFSAux, hm]]
      rw [ih s x]
      constructor
      · rintro ⟨hr, hs⟩; exact ⟨List.mem_cons_of_mem _ hr, hs⟩
      · rintro ⟨hr, hs⟩
        rcases List.mem_cons.mp hr with rfl | hr2
        · exact absurd hm hs
        · exact ⟨hr2, hs⟩
    · rw [show dedupFSAux s (i :: rest) = i :: dedupFSAux (i :: s) rest by
        simp [dedupFSAux, hm]]
      constructor
      · intro hx
        rcases List.mem_cons.mp hx with rfl | hx2
        · exact ⟨List.mem_cons_self _ _, hm⟩
        · rcases (ih (i :: s) x).mp hx2 with ⟨hr, hs⟩
          exact ⟨List.mem_cons_of_mem _ hr,
            fun hxs => hs (List.mem_cons_of_mem _ hxs)⟩
      · rintro ⟨hr, hs⟩
        rcases List.mem_cons.mp hr with rfl | hr2
        · exact List.mem_cons_self _ _
        · by_cases hxi : x = i
          · subst hxi; exact List.mem_cons_self _ _
          · exact List.mem_cons_of_mem _
              ((ih (i :: s) x).mpr ⟨hr2, by simp [List.mem_cons, hxi, hs]⟩)

theorem nodup_dedupFSAux : ∀ (r s : List Str), (dedupFSAux s r).Nodup := by
  intro r
  induction r with
  | nil => intro s; simp [dedupFSAux]
  | cons i rest ih =>
    intro s
    by_cases hm : i ∈ s
    · rw [show dedupFSAux s (i :: rest) = dedupFSAux s rest by
        simp [dedupFSAux, hm]]
      exact ih s
    · rw [show dedupFSAux s (i :: rest) = i :: dedupFSAux (i :: s) rest by
        simp [dedupFSAux, hm]]
      exact List.Nodup.cons
        (fun hx => ((mem_dedupFSAux rest (i :: s) i).mp hx).2
          (List.mem_cons_self _ _))
        (ih (i :: s))

theorem keysOf_orphanTally (ex : List Str) :
    ∀ (ids : List Str) (acc : List (Str × Nat)),
      keysOf (orphanTally ex acc ids) =
        keysOf acc ++
          dedupFSAux (keysOf acc) (ids.filter (fun i => decide (i ∉ ex))) := by
  intro ids
  induction ids with
  | nil => intro acc; simp [orphanTally, dedupFSAux]
  | cons i rest ih =>
    intro acc
    by_cases hex : i ∈ ex
    · have h1 : orphanTally ex acc (i :: rest) = orphanTally ex acc rest := by
        simp [orphanTally, hex]
      have h2 : (i :: rest).filter (fun i => decide (i ∉ ex)) =
          rest.filter (fun i => decide (i ∉ ex)) := by
        simp [List.filter_cons, hex]
      rw [h1, h2, ih acc]
    · have h1 : orphanTally ex acc (i :: rest) =
          orphanTally ex (bump acc i) rest := by
        simp [orphanTally, hex]
      have h2 : (i :: rest).filter (fun i => decide (i ∉ ex)) =
          i :: rest.filter (fun i => decide (i ∉ ex)) := by
        simp [List.filter_cons, hex]
      rw [h1, h2, ih (bump acc i), keysOf_bump]
      by_cases hm : i ∈ keysOf acc
      · rw [if_pos hm]
        rw [show dedupFSAux (keysOf acc)
            (i :: rest.filter (fun i => decide (i ∉ ex))) =
            dedupFSAux (keysOf acc) (rest.filter (fun i => decide (i ∉ ex)))
          by simp [dedupFSAux, hm]]
      · rw [if_neg hm]
        rw [show dedupFSAux (keysOf acc)
            (i :: rest.filter (fun i => decide (i ∉ ex))) =
            i :: dedupFSAux (i :: keysOf acc)
              (rest.filter (fun i => decide (i ∉ ex)))
          by simp [dedupFSAux, hm]]
        rw [dedupFSAux_congr (rest.filter (fun i => decide (i ∉ ex)))
          (keysOf acc ++ [i]) (i :: keysOf acc)
          (fun x => by simp [List.mem_append, List.mem_cons, or_comm])]
        simp

theorem lookup0_orphanTally (ex : List Str) :
    ∀ (ids : List Str) (acc : List (Str × Nat)) (j : Str),
      lookup0 (orphanTally ex acc ids) j =
        lookup0 acc j + (ids.filter (fun i => decide (i ∉ ex))).count j := by
  intro ids
  induction ids with
  | nil => intro acc j; simp [orphanTally]
  | cons i rest ih =>
    intro acc j
    by_cases hex : i ∈ ex
    · have h1 : orphanTally ex acc (i :: rest) = orphanTally ex acc rest := by
        simp [orphanTally, hex]
      have h2 : (i :: rest).filter (fun i => decide (i ∉ ex)) =
          rest.filter (fun i => decide (i ∉ ex)) := by
        simp [List.filter_cons, hex]
      rw [h1, h2, ih acc j]
    · have h1 : orphanTally ex acc (i :: rest) =
          orphanTally ex (bump acc i) rest := by
        simp [orphanTally, hex]
      have h2 : (i :: rest).filter (fun i => decide (i ∉ ex)) =
          i :: rest.filter (fun i => decide (i ∉ ex)) := by
        simp [List.filter_cons, hex]
      rw [h1, h2, ih (bump acc i) j, lookup0_bump, List.count_cons]
      by_cases hji : j = i
      · simp [hji]; omega
      · have : (j == i) = false := by simp [hji]
        simp [this, hji]
        exact fun hh => hji hh.symm

theorem nodup_keysOf_orphanTally (ex ids : List Str) :
    (keysOf (orphanTally ex [] ids)).Nodup := by
  rw [keysOf_orphanTally]
  simpa [keysOf] using
    nodup_dedupFSAux (ids.filter (fun i => decide (i ∉ ex))) []

theorem mem_lookup0 :
    ∀ (acc : List (Str × Nat)), (keysOf acc).Nodup →
      ∀ p ∈ acc, lookup0 acc p.1 = p.2 := by
  intro acc
  induction acc with
  | nil => intro _ p hp; cases hp
  | cons q rest ih =>
    rcases q with ⟨k, v⟩
    intro hnd p hp
    have hnd2 : k ∉ keysOf rest ∧ (keysOf rest).Nodup :=
      List.nodup_cons.mp (by simpa [keysOf] using hnd)
    rcases List.mem_cons.mp hp with rfl | hp2
    · simp [lookup0, List.find?]
    · have hne : p.1 ≠ k := by
        intro hh
        exact hnd2.1 (hh ▸ List.mem_map_of_mem Prod.fst hp2)
      have hkp : ¬ (k = p.1) := fun hh => hne hh.symm
      have hstep : lookup0 ((k, v) :: rest) p.1 = lookup0 rest p.1 := by
        simp [lookup0, List.find?, hkp]
      rw [hstep]
      exact ih hnd2.2 p hp2

theorem mem_orderedInsertBy {α : Type} (le : α → α → Bool) (a : α) :
    ∀ (l : List α) (x : α), x ∈ orderedInsertBy le a l ↔ x = a ∨ x ∈ l := by
  intro l
  induction l with
  | nil => intro x; simp [orderedInsertBy]
  | cons b t ih =>
    intro x
    cases hle : le a b with
    | true => simp [orderedInsertBy, hle, List.mem_cons]
    | false =>
      simp [orderedInsertBy, hle, List.mem_cons, ih x]
      tauto

theorem mem_insertionSortBy {α : Type} (le : α → α → Bool) :
    ∀ (l : List α) (x : α), x ∈ insertionSortBy le l ↔ x ∈ l := by
  intro l
  induction l with
  | nil => intro x; simp [insertionSortBy]
  | cons a t ih =>
    intro x
    simp [insertionSortBy, mem_orderedInsertBy, ih x, List.mem_cons]

/-- Claim C6 (confirmed): `get_orphan_references` returns exactly one
record per cited-but-undeclared id, in first-seen order of the
left-to-right citation scan, counting every occurrence of that id in the
body text; no such id can appear in the unused-references report. -/
theorem orphan_references_spec (m : MarkdownFile) :
    (get_orphan_references m).map OrphanRefRecord.reference_id =
      dedupFS (orphanCandidateIds m) ∧
    ((get_orphan_references m).map OrphanRefRecord.reference_id).Nodup ∧
    (∀ i : Str,
      i ∈ (get_orphan_references m).map OrphanRefRecord.reference_id ↔
        (i ∈ citationIds (bodyTextOf m) ∧ i ∉ ledgerIds m)) ∧
    (∀ rec ∈ get_orphan_references m,
      rec.number_of_appearances =
        (citationIds (bodyTextOf m)).count rec.reference_id) ∧
    (∀ rec ∈ get_orphan_references m, rec.reference_id ∉ ledgerIds m) ∧
    (∀ rec ∈ get_orphan_references m, ∀ u ∈ get_unused_references m,
      rec.reference_id ≠ u.reference_id) := by
  have hmap : (get_orphan_references m).map OrphanRefRecord.reference_id =
      keysOf (orphanTally (ledgerIds m) [] (citationIds (bodyTextOf m))) := by
    simp [get_orphan_references, keysOf, List.map_map]
  have hkeys :
      keysOf (orphanTally (ledgerIds m) [] (citationIds (bodyTextOf m))) =
        dedupFS (orphanCandidateIds m) := by
    have h := keysOf_orphanTally (ledgerIds m) (citationIds (bodyTextOf m)) []
    simpa [keysOf, dedupFS, orphanCandidateIds] using h
  have hmem : ∀ i : Str,
      i ∈ keysOf (orphanTally (ledgerIds m) [] (citationIds (bodyTextOf m))) ↔
        (i ∈ citationIds (bodyTextOf m) ∧ i ∉ ledgerIds m) := by
    intro i
    rw [hkeys,
      show dedupFS (orphanCandidateIds m) =
        dedupFSAux [] (orphanCandidateIds m) from rfl,
      mem_dedupFSAux]
    simp [orphanCandidateIds, List.mem_filter]
  have horph : ∀ rec ∈ get_orphan_references m,
      rec.reference_id ∉ ledgerIds m := by
    intro rec hrec
    obtain ⟨p, hp, rfl⟩ := List.mem_map.mp hrec
    have hpmem :
        p.1 ∈ keysOf (orphanTally (ledgerIds m) []
          (citationIds (bodyTextOf m))) :=
      List.mem_map_of_mem Prod.fst hp
    exact ((hmem p.1).mp hpmem).2
  have hcount : ∀ rec ∈ get_orphan_references m,
      rec.number_of_appearances =
        (citationIds (bodyTextOf m)).count rec.reference_id := by
    intro rec hrec
    have hpex := horph rec hrec
    obtain ⟨p, hp, rfl⟩ := List.mem_map.mp hrec
    have hnd :=
      nodup_keysOf_orphanTally (ledgerIds m) (citationIds (bodyTextOf m))
    have hv := mem_lookup0 _ hnd p hp
    have hl :=
      lookup0_orphanTally (ledgerIds m) (citationIds (bodyTextOf m)) [] p.1
    have hz : lookup0 [] p.1 = 0 := rfl
    have hcf : (List.filter (fun i => decide (i ∉ ledgerIds m))
          (citationIds (bodyTextOf m))).count p.1 =
        (citationIds (bodyTextOf m)).count p.1 :=
      List.count_filter (by simpa using hpex)
    show p.2 = (citationIds (bodyTextOf m)).count p.1
    rw [← hv, hl, hz, Nat.zero_add, hcf]
  have hledger_unused : ∀ u ∈ get_unused_references m,
      u.reference_id ∈ ledgerIds m := by
    intro u hu
    obtain ⟨r, hr, rfl⟩ := List.mem_map.mp hu
    have hr2 := List.mem_of_mem_filter hr
    have hr3 : r ∈ m.references :=
      (mem_insertionSortBy refLE m.references r).mp
        (by simpa [get_ordered_by_pos] using hr2)
    exact List.mem_map_of_mem Reference.reference_id hr3
  refine ⟨hmap.trans hkeys, ?_, ?_, hcount, horph, ?_⟩
  · rw [hmap, hkeys]
    exact nodup_dedupFSAux _ _
  · intro i
    rw [hmap]
    exact hmem i
  · intro rec hrec u hu heq
    exact horph rec hrec (heq ▸ hledger_unused u hu)

/-- A concrete document used to instantiate claim C6: the citation
`[^ghost]` appears twice and has no declaration, `[^kissa]` is declared
and cited once. -/
def mEx : MarkdownFile :=
  { body_lines := [str "see [^ghost] and [^ghost] plus [^kissa] end"]
    references := [{ full_reference_line := str "[^kissa]: Cat."
                     first_appearance_pos := some 31
                     number_of_appearances := 1
                     reference_id := str "kissa" }] }

/-- Witness for claim C6 at a concrete document: applying the theorem,
and checking by evaluation that the single orphan record is `ghost`
with count 2. -/
theorem orphan_references_spec_witness :
    (get_orphan_references mEx).map OrphanRefRecord.reference_id =
      dedupFS (orphanCandidateIds mEx) ∧
    ({ reference_id := str "ghost", number_of_appearances := 2 } :
      OrphanRefRecord) ∈ get_orphan_references mEx :=
  ⟨(orphan_references_spec mEx).1, by decide⟩

/-! ## captions.py -/

/-- `Caption` dataclass. -/
structure Caption where
  line_number : Nat
  current_number : Nat
  text : Str
  full_line : Str
  deriving DecidableEq

/-- `parse_caption(line, line_number)`: match the stripped line against
the prefix pattern `\*\*Kuva (\d+)\*\*: (.+)` (`re.match`; the digits
are a maximal run, `(.+)` takes the rest of the stripped line up to a
newline and must be nonempty). -/
def parse_caption (line : Str) (line_number : Nat) : Option Caption :=
  let s := pyStrip line
  if (str "**Kuva ").isPrefixOf s then
    let rest := s.drop 7
    let ds := rest.takeWhile Char.isDigit
    if ds = [] then none
    else
      let rest2 := rest.drop ds.length
      if (str "**: ").isPrefixOf rest2 then
        let txt := (rest2.drop 4).takeWhile (fun c => c ≠ '\n')
        if txt = [] then none
        else some { line_number := line_number
                    current_number := natOfDigits ds
                    text := txt
                    full_line := line }
      else none
  else none

/-- `Caption.get_renumbered_line(new_number)`. -/
def Caption.get_renumbered_line (c : Caption) (new_number : Nat) : Str :=
  str "**Kuva " ++ (Nat.repr new_number).toList ++ str "**: " ++ c.text

/-- Python `enumerate(l, start=k)`. -/
def numberFrom {α : Type} (k : Nat) : List α → List (Nat × α)
  | [] => []
  | a :: l => (k, a) :: numberFrom (k + 1) l

/-- The state of a loaded `CaptionFile` (constant `file_path` omitted). -/
structure CaptionFile where
  lines : List Str
  captions : List Caption
  deriving DecidableEq

/-- `CaptionFile.__init__` with `auto_load=True` (`_load_captions`). -/
def loadCaptionFile (content : Str) : CaptionFile :=
  let lines := splitlines content
  { lines := lines
    captions := (numberFrom 0 lines).filterMap (fun p => parse_caption p.2 p.1) }

/-- `CaptionIssue` dataclass (constant `file_path` omitted). -/
structure CaptionIssue where
  line_number : Nat
  current_number : Nat
  expected_number : Nat
  caption_text : Str
  deriving DecidableEq

/-- The issue row built by `get_caption_issues` (1-indexed line, text
preview truncated to 50 characters). -/
def mkIssue (p : Nat × Caption) : CaptionIssue :=
  { line_number := p.2.line_number + 1
    current_number := p.2.current_number
    expected_number := p.1
    caption_text := p.2.text.take 50 ++
      (if 50 < p.2.text.length then str "..." else []) }

/-- `CaptionFile.get_caption_issues`. -/
def get_caption_issues (cf : CaptionFile) : List CaptionIssue :=
  (numberFrom 1 cf.captions).filterMap
    (fun p => if p.2.current_number ≠ p.1 then some (mkIssue p) else none)

/-- The numbered captions whose printed number disagrees with their
expected sequential number. -/
def mismatchedCaptions (cf : CaptionFile) : List (Nat × Caption) :=
  (numberFrom 1 cf.captions).filter
    (fun p => decide (p.2.current_number ≠ p.1))

/-- The replacement line of a mismatched caption: original leading
whitespace plus the renumbered caption. -/
def rewriteLine (p : Nat × Caption) : Str :=
  p.2.full_line.takeWhile isSpace ++ p.2.get_renumbered_line p.1

/-- One iteration of the rewrite loop of `_get_fixed_content`. -/
def renumberStep (ls : List Str) (p : Nat × Caption) : List Str :=
  if p.2.current_number ≠ p.1 then ls.set p.2.line_number (rewriteLine p)
  else ls

/-- The line list after `_get_fixed_content`s rewrite loop. -/
def fixedLines (cf : CaptionFile) : List Str :=
  (numberFrom 1 cf.captions).foldl renumberStep cf.lines

/-- `CaptionFile._get_fixed_content`. -/
def get_fixed_content (cf : CaptionFile) : Str := joinNl (fixedLines cf)

/-- `CaptionFile.fix_captions`, modelled as (content written if any,
returned count). -/
def fix_captions (cf : CaptionFile) : Option Str × Nat :=
  let issues := get_caption_issues cf
  if issues = [] then (none, 0)
  else (some (get_fixed_content cf), issues.length)

set_option linter.unnecessarySeqFocus false in
theorem parse_caption_some {line : Str} {n : Nat} {c : Caption}
    (h : parse_caption line n = some c) :
    c.line_number = n ∧ c.full_line = line := by
  unfold parse_caption at h
  dsimp only at h
  split_ifs at h <;> cases h <;> exact ⟨rfl, rfl⟩

theorem mem_numberFrom_lt {α : Type} :
    ∀ (l : List α) (k : Nat) (p : Nat × α),
      p ∈ numberFrom k l → k ≤ p.1 ∧ p.1 < k + l.length := by
  intro l
  induction l with
  | nil => intro k p hp; cases hp
  | cons a t ih =>
    intro k p hp
    rcases List.mem_cons.mp hp with rfl | hp2
    · simp
    · have := ih (k + 1) p hp2
      constructor <;> [omega; (simp only [List.length_cons]; omega)]

theorem mem_numberFrom_snd {α : Type} :
    ∀ (l : List α) (k : Nat) (p : Nat × α), p ∈ numberFrom k l → p.2 ∈ l := by
  intro l
  induction l with
  | nil => intro k p hp; cases hp
  | cons a t ih =>
    intro k p hp
    rcases List.mem_cons.mp hp with rfl | hp2
    · simp
    · exact List.mem_cons_of_mem _ (ih (k + 1) p hp2)

theorem mem_numberFrom_getElem {α : Type} :
    ∀ (l : List α) (k : Nat) (p : Nat × α),
      p ∈ numberFrom k l → l[p.1 - k]? = some p.2 := by
  intro l
  induction l with
  | nil => intro k p hp; cases hp
  | cons a t ih =>
    intro k p hp
    rcases List.mem_cons.mp hp with rfl | hp2
    · simp
    · have hlt := (mem_numberFrom_lt t (k + 1) p hp2).1
      have := ih (k + 1) p hp2
      have hidx : p.1 - k = (p.1 - (k + 1)) + 1 := by omega
      rw [hidx]
      simpa using this

theorem pairwise_numberFrom_fst {α : Type} :
    ∀ (l : List α) (k : Nat),
      (numberFrom k l).Pairwise (fun p q => p.1 < q.1) := by
  intro l
  induction l with
  | nil => intro k; exact List.Pairwise.nil
  | cons a t ih =>
    intro k
    refine List.Pairwise.cons ?_ (ih (k + 1))
    intro q hq
    have := (mem_numberFrom_lt t (k + 1) q hq).1
    simpa using Nat.lt_of_lt_of_le (Nat.lt_succ_self k) this

theorem foldl_renumberStep_length :
    ∀ (caps : List (Nat × Caption)) (ls : List Str),
      (caps.foldl renumberStep ls).length = ls.length := by
  intro caps
  induction caps with
  | nil => intro ls; rfl
  | cons q rest ih =>
    intro ls
    rw [List.foldl_cons, ih]
    unfold renumberStep
    split <;> simp

theorem foldl_renumberStep_untouched :
    ∀ (caps : List (Nat × Caption)) (ls : List Str) (i : Nat),
      (∀ p ∈ caps, p.2.current_number ≠ p.1 → p.2.line_number ≠ i) →
      (caps.foldl renumberStep ls)[i]? = ls[i]? := by
  intro caps
  induction caps with
  | nil => intro ls i _; rfl
  | cons q rest ih =>
    intro ls i h
    rw [List.foldl_cons,
      ih (renumberStep ls q) i (fun p hp => h p (List.mem_cons_of_mem _ hp))]
    unfold renumberStep
    by_cases hq : q.2.current_number ≠ q.1
    · rw [if_pos hq]
      exact List.getElem?_set_ne (h q (List.mem_cons_self _ _) hq)
    · rw [if_neg hq]

theorem foldl_renumberStep_mismatch :
    ∀ (caps : List (Nat × Caption)) (ls : List Str),
      caps.Pairwise (fun p q => p.2.line_number ≠ q.2.line_number) →
      ∀ p ∈ caps, p.2.current_number ≠ p.1 → p.2.line_number < ls.length →
        (caps.foldl renumberStep ls)[p.2.line_number]? =
          some (rewriteLine p) := by
  intro caps
  induction caps with
  | nil => intro ls _ p hp; cases hp
  | cons q rest ih =>
    intro ls hpw p hp hmis hlt
    rcases List.pairwise_cons.mp hpw with ⟨hhead, htail⟩
    rw [List.foldl_cons]
    rcases List.mem_cons.mp hp with rfl | hp2
    · rw [foldl_renumberStep_untouched rest (renumberStep ls p)
        p.2.line_number (fun r hr _ heq => hhead r hr heq.symm)]
      unfold renumberStep
      rw [if_pos hmis]
      exact List.getElem?_set_self hlt
    · have hlen : (renumberStep ls q).length = ls.length := by
        unfold renumberStep; split <;> simp
      exact ih (renumberStep ls q) htail p hp2 hmis (by rw [hlen]; exact hlt)

theorem pairwise_filterMap_parse :
    ∀ (l : List (Nat × Str)), l.Pairwise (fun p q => p.1 < q.1) →
      (l.filterMap (fun p => parse_caption p.2 p.1)).Pairwise
        (fun c d => c.line_number < d.line_number) := by
  intro l
  induction l with
  | nil => intro _; exact List.Pairwise.nil
  | cons q rest ih =>
    intro hpw
    rcases List.pairwise_cons.mp hpw with ⟨hhead, htail⟩
    cases hq : parse_caption q.2 q.1 with
    | none =>
      rw [show (q :: rest).filterMap (fun p => parse_caption p.2 p.1) =
        rest.filterMap (fun p => parse_caption p.2 p.1) by
          simp [List.filterMap_cons, hq]]
      exact ih htail
    | some c =>
      rw [show (q :: rest).filterMap (fun p => parse_caption p.2 p.1) =
        c :: rest.filterMap (fun p => parse_caption p.2 p.1) by
          simp [List.filterMap_cons, hq]]
      refine List.Pairwise.cons ?_ (ih htail)
      intro d hd
      obtain ⟨r, hr, hrd⟩ := List.mem_filterMap.mp hd
      rw [(parse_caption_some hq).1, (parse_caption_some hrd).1]
      exact hhead r hr

theorem numberFrom_pairwise_snd {α : Type} {R : α → α → Prop} :
    ∀ (l : List α) (k : Nat), l.Pairwise R →
      (numberFrom k l).Pairwise (fun p q => R p.2 q.2) := by
  intro l
  induction l with
  | nil => intro k _; exact List.Pairwise.nil
  | cons a t ih =>
    intro k hpw
    rcases List.pairwise_cons.mp hpw with ⟨hh, ht⟩
    exact List.Pairwise.cons
      (fun q hq => hh q.2 (mem_numberFrom_snd t (k + 1) q hq)) (ih (k + 1) ht)

theorem loadCaptionFile_bounds (content : Str) :
    ∀ c ∈ (loadCaptionFile content).captions,
      c.line_number < (loadCaptionFile content).lines.length := by
  intro c hc
  have hc2 : ∃ a b, (a, b) ∈ numberFrom 0 (splitlines content) ∧
      parse_caption b a = some c := by
    simpa [loadCaptionFile, List.mem_filterMap] using hc
  obtain ⟨a, b, hp, hpc⟩ := hc2
  have hln := (parse_caption_some hpc).1
  have hb := (mem_numberFrom_lt (splitlines content) 0 (a, b) hp).2
  show c.line_number < (splitlines content).length
  rw [hln]
  simpa using hb

theorem loadCaptionFile_pairwise (content : Str) :
    (loadCaptionFile content).captions.Pairwise
      (fun c d => c.line_number < d.line_number) :=
  pairwise_filterMap_parse (numberFrom 0 (splitlines content))
    (pairwise_numberFrom_fst (splitlines content) 0)

theorem length_issues_eq_mismatched (cf : CaptionFile) :
    (get_caption_issues cf).length = (mismatchedCaptions cf).length := by
  unfold get_caption_issues mismatchedCaptions
  generalize numberFrom 1 cf.captions = l
  induction l with
  | nil => rfl
  | cons q rest ih =>
    by_cases hq : q.2.current_number ≠ q.1
    · rw [List.filterMap_cons, List.filter_cons]
      rw [if_pos hq,
        if_pos (show decide (q.2.current_number ≠ q.1) = true by
          simpa using hq)]
      dsimp only
      rw [List.length_cons, List.length_cons, ih]
    · rw [List.filterMap_cons, List.filter_cons]
      rw [if_neg hq,
        if_neg (show ¬ decide (q.2.current_number ≠ q.1) = true by
          simpa using hq)]
      dsimp only
      exact ih

/-- Claim C7 counterexample: on the file `"**Kuva 2**: x\n"` the claim
requires the rewrite to leave all other text byte-identical, so the
trailing newline of the file should survive and the fixed content should
be `"**Kuva 1**: x\n"`; `_get_fixed_content` joins the split lines with
single newlines, so the written content is `"**Kuva 1**: x"` and the
final newline of the file is dropped. -/
theorem fix_captions_trailing_newline_counterexample :
    (fix_captions (loadCaptionFile (str "**Kuva 2**: x\n"))).1 =
      some (str "**Kuva 1**: x") ∧
    str "**Kuva 1**: x" ≠ str "**Kuva 1**: x\n" :=
  ⟨rfl, by decide⟩

/-- Claim C7, amended (corrected): `fix_captions` returns the number of
mismatched captions and, when that number is nonzero, writes the lines
rejoined with single newlines (so a trailing final newline of the
original file is not preserved), where each mismatched caption line is
replaced by its original leading whitespace followed by the renumbered
caption `**Kuva <expected>**: <text>`, and every other line — including
non-mismatched caption lines — is byte-identical; when nothing is
mismatched nothing is written. -/
theorem fix_captions_spec (content : Str) :
    ((fix_captions (loadCaptionFile content)).2 =
      (get_caption_issues (loadCaptionFile content)).length) ∧
    ((get_caption_issues (loadCaptionFile content)).length =
      (mismatchedCaptions (loadCaptionFile content)).length) ∧
    (get_caption_issues (loadCaptionFile content) = [] →
      (fix_captions (loadCaptionFile content)).1 = none) ∧
    (get_caption_issues (loadCaptionFile content) ≠ [] →
      (fix_captions (loadCaptionFile content)).1 =
        some (joinNl (fixedLines (loadCaptionFile content)))) ∧
    ((fixedLines (loadCaptionFile content)).length =
      (loadCaptionFile content).lines.length) ∧
    (∀ i : Nat,
      (∀ p ∈ mismatchedCaptions (loadCaptionFile content),
        p.2.line_number ≠ i) →
      (fixedLines (loadCaptionFile content))[i]? =
        (loadCaptionFile content).lines[i]?) ∧
    (∀ p ∈ mismatchedCaptions (loadCaptionFile content),
      (fixedLines (loadCaptionFile content))[p.2.line_number]? =
        some (rewriteLine p)) := by
  have hb : ∀ p ∈ numberFrom 1 (loadCaptionFile content).captions,
      p.2.line_number < (loadCaptionFile content).lines.length :=
    fun p hp => loadCaptionFile_bounds content p.2
      (mem_numberFrom_snd _ _ p hp)
  have hpw : (numberFrom 1 (loadCaptionFile content).captions).Pairwise
      (fun p q => p.2.line_number ≠ q.2.line_number) :=
    (numberFrom_pairwise_snd (loadCaptionFile content).captions 1
      (loadCaptionFile_pairwise content)).imp (fun h => Nat.ne_of_lt h)
  refine ⟨?_, length_issues_eq_mismatched _, ?_, ?_, ?_, ?_, ?_⟩
  · by_cases hi : get_caption_issues (loadCaptionFile content) = []
    · simp [fix_captions, hi]
    · simp [fix_captions, hi]
  · intro hi
    simp [fix_captions, hi]
  · intro hi
    simp [fix_captions, get_fixed_content, hi]
  · exact foldl_renumberStep_length _ _
  · intro i h
    exact foldl_renumberStep_untouched _ _ i (fun p hp hm =>
      h p (List.mem_filter.mpr ⟨hp, by simpa using hm⟩))
  · intro p hp
    rcases List.mem_filter.mp hp with ⟨hp1, hp2⟩
    exact foldl_renumberStep_mismatch _ _ hpw p hp1 (by simpa using hp2)
      (hb p hp1)

/-- The caption example of the specification: captions numbered 3 and 5
in file order. -/
def exCaptions : Str := str "intro\n**Kuva 3**: a\n**Kuva 5**: b"

/-- Witness for the amended claim C7 at the example of the
specification: both mismatched captions are renumbered to 1 and 2, the
other line is untouched, and 2 is returned. -/
theorem fix_captions_spec_witness :
    (fix_captions (loadCaptionFile exCaptions)).1 =
      some (joinNl (fixedLines (loadCaptionFile exCaptions))) ∧
    (fix_captions (loadCaptionFile exCaptions)).2 = 2 ∧
    fixedLines (loadCaptionFile exCaptions) =
      [str "intro", str "**Kuva 1**: a", str "**Kuva 2**: b"] :=
  ⟨(fix_captions_spec exCaptions).2.2.2.1 (by decide), by decide, by decide⟩

/-! ## wordcounter.py -/

/-- The backtick character. -/
def bq : Char := Char.ofNat 96

/-- A fenced-code-block delimiter: three backticks. -/
def fence : Str := [bq, bq, bq]

/-- Index of the first occurrence of `fence` in the text, if any. -/
def findFence : Str → Option Nat
  | [] => none
  | c :: rest =>
    if fence.isPrefixOf (c :: rest) then some 0
    else (findFence rest).map (fun n => n + 1)

/-- The scan of `re.sub(r"```.*?```", "", content, flags=re.DOTALL)`:
at each position, an opening fence with a closing fence after it removes
the whole span (lazy: up to the first closing fence) and the scan
resumes after it; an opening fence with no closing fence cannot start a
match, and no match can start later either, since any later fence would
itself have served as the closing one.  A non-zero `skip` means the
scanner is inside a match span. -/
def removeCodeBlocksGo : Nat → Str → Str
  | _, [] => []
  | Nat.succ k, _ :: rest => removeCodeBlocksGo k rest
  | 0, c :: rest =>
    if fence.isPrefixOf (c :: rest) then
      match findFence (rest.drop 2) with
      | some j => removeCodeBlocksGo (j + 5) rest
      | none => c :: rest
    else c :: removeCodeBlocksGo 0 rest

/-- `re.sub(r"```.*?```", "", content, flags=re.DOTALL)`. -/
def removeCodeBlocks (content : Str) : Str := removeCodeBlocksGo 0 content

/-- Match of `\]\(http[^\)]+\)` at the start of `s`: the literal
`](http`, then a maximal nonempty run of non-`)` characters, then `)`;
returns the match length. -/
def linkCloseAt (s : Str) : Option Nat :=
  if (str "](http").isPrefixOf s then
    match (s.drop 6).drop ((s.drop 6).takeWhile (fun d => d ≠ ')')).length with
    | ')' :: _ =>
      if (s.drop 6).takeWhile (fun d => d ≠ ')') = [] then none
      else some (6 + ((s.drop 6).takeWhile (fun d => d ≠ ')')).length + 1)
    | _ => none
  else none

/-- Match of `.*?\]\(http[^\)]+\)` at the start of `s` (what follows the
opening `[` of the link pattern): the lazy `.*?` tries the shortest
extension first and cannot cross a newline; returns the number of
characters matched. -/
def matchAfterBracket : Str → Option Nat
  | [] => none
  | c :: rest =>
    match linkCloseAt (c :: rest) with
    | some n => some n
    | none =>
      if c = '\n' then none
      else (matchAfterBracket rest).map (fun n => n + 1)

/-- The scan of `re.sub(r"\[.*?\]\(http[^\)]+\)", "", content)`: at each
`[`, the leftmost-shortest match of the rest of the pattern removes the
span and the scan resumes after it. -/
def removeLinksGo : Nat → Str → Str
  | _, [] => []
  | Nat.succ k, _ :: rest => removeLinksGo k rest
  | 0, c :: rest =>
    if c = '[' then
      match matchAfterBracket rest with
      | some m => removeLinksGo m rest
      | none => c :: removeLinksGo 0 rest
    else c :: removeLinksGo 0 rest

/-- `re.sub(r"\[.*?\]\(http[^\)]+\)", "", content)`. -/
def removeLinks (s : Str) : Str := removeLinksGo 0 s

/-- Count of `\b\w+\b` matches: the number of maximal word-character
runs.  The flag records whether the scanner is inside a run. -/
def countTokensAux : Bool → Str → Nat
  | _, [] => 0
  | inWord, c :: rest =>
    if isWordChar c then
      (if inWord then 0 else 1) + countTokensAux true rest
    else countTokensAux false rest

/-- `len(re.findall(r"\b\w+\b", content))`. -/
def countTokens (s : Str) : Nat := countTokensAux false s

/-- The generator `(line for line in lines if not is_reference_line(line))`:
keeps non-declaration lines, propagating the `ValueError` of a bodyless
declaration line. -/
def filterRefLines : List Str → Except Str (List Str)
  | [] => .ok []
  | l :: rest =>
    match is_reference_line l with
    | .error e => .error e
    | .ok b =>
      match filterRefLines rest with
      | .error e => .error e
      | .ok r => .ok (if b then r else l :: r)

/-- `count_words(file_path)` on the file content: remove fenced code
blocks, drop reference-declaration lines, remove `[text](http...)`
spans, count word tokens. -/
def count_words (content : Str) : Except Str Nat :=
  match filterRefLines (splitlines (removeCodeBlocks content)) with
  | .error e => .error e
  | .ok kept => .ok (countTokens (removeLinks (joinNl kept)))

/-- The claim wording of C10: the first whitespace-delimited token
starts with `[^` and ends with `]:` and no text follows it. -/
def bodylessDeclLine (line : Str) : Bool :=
  declOpener (firstTok line) && (afterTok line).all isSpace

/-- Claim C10 counterexample: the file `"```\n[^x]:\n```"` contains the
line `[^x]:`, whose first token starts with `[^`, ends with `]:` and has
no text after it, yet `count_words` returns a count instead of raising:
fenced code blocks are removed before the line scan, so the bodyless
declaration inside the fence is never classified. -/
theorem count_words_codeblock_shield_counterexample :
    (str "[^x]:") ∈ splitlines (str "```\n[^x]:\n```") ∧
    bodylessDeclLine (str "[^x]:") = true ∧
    count_words (str "```\n[^x]:\n```") = .ok 0 :=
  ⟨by decide, by decide, rfl⟩

theorem is_reference_line_error_of_bodyless (l : Str)
    (h : bodylessDeclLine l = true) :
    ∃ e, is_reference_line l = .error e := by
  rcases (Bool.and_eq_true _ _).mp h with ⟨hop, hall⟩
  have hall2 : ∀ c ∈ afterTok l, isSpace c = true := by
    simpa [List.all_eq_true] using hall
  have h0 : firstTok l ≠ [] := by
    intro h0
    rw [h0] at hop
    exact absurd hop (by decide)
  have hps : pySplit l = firstTok l :: pySplit (afterTok l) := by
    rw [pySplit_eq, if_neg h0]
  have hre : pySplit (afterTok l) = [] := by
    rw [pySplit_eq, if_pos ((firstTok_nil_iff _).mpr hall2)]
  exact ⟨str "A line with a reference does not contain any text after the ID.",
    by simp [is_reference_line, hps, hre, hop]⟩

theorem filterRefLines_error :
    ∀ lines : List Str,
      (∃ l ∈ lines, ∃ e, is_reference_line l = .error e) →
      ∃ e, filterRefLines lines = .error e := by
  intro lines
  induction lines with
  | nil => rintro ⟨l, hl, -⟩; cases hl
  | cons a rest ih =>
    rintro ⟨l, hl, e, he⟩
    cases hb : is_reference_line a with
    | error e2 => exact ⟨e2, by simp [filterRefLines, hb]⟩
    | ok b =>
      rcases List.mem_cons.mp hl with rfl | hl2
      · rw [hb] at he; cases he
      · rcases ih ⟨l, hl2, e, he⟩ with ⟨e3, he3⟩
        exact ⟨e3, by simp [filterRefLines, hb, he3]⟩

/-- Claim C10, amended (corrected): `count_words` raises the
malformed-declaration error whenever, after fenced code blocks are
removed, some line's first whitespace-delimited token starts with `[^`
and ends with `]:` with no text after it.  (The original claim
quantified over every file containing such a line; a bodyless
declaration inside a fenced code block is removed before the line scan
and does not raise — see the counterexample.) -/
theorem count_words_raises_on_bodyless_decl (content : Str)
    (h : ∃ l ∈ splitlines (removeCodeBlocks content),
      bodylessDeclLine l = true) :
    ∃ e, count_words content = .error e := by
  rcases h with ⟨l, hl, hb⟩
  rcases filterRefLines_error (splitlines (removeCodeBlocks content))
    ⟨l, hl, is_reference_line_error_of_bodyless l hb⟩ with ⟨e, he⟩
  exact ⟨e, by simp [count_words, he]⟩

/-- Witness for the amended claim C10: a bodyless declaration line
outside any code block makes `count_words` raise. -/
theorem count_words_raises_on_bodyless_decl_witness :
    ∃ e, count_words (str "[^x]:\nhello") = .error e :=
  count_words_raises_on_bodyless_decl (str "[^x]:\nhello") (by decide)

/-! ## Claim C8: word-count exclusions -/

theorem alpha_ne_char {c x : Char} (h : c.isAlpha = true)
    (hx : x.isAlpha = false) : c ≠ x := by
  intro he
  rw [he, hx] at h
  cases h

theorem alpha_not_space {c : Char} (h : c.isAlpha = true) :
    isSpace c = false := by
  cases hs : isSpace c with
  | false => rfl
  | true =>
    simp only [isSpace, Bool.or_eq_true, decide_eq_true_eq, or_assoc] at hs
    rcases hs with rfl | rfl | rfl | rfl | rfl | rfl <;>
      exact absurd h (by decide)

theorem alpha_not_lb {c : Char} (h : c.isAlpha = true) : isLB c = false := by
  cases hs : isLB c with
  | false => rfl
  | true =>
    simp only [isLB, Bool.or_eq_true, decide_eq_true_eq, or_assoc] at hs
    rcases hs with rfl | rfl | rfl | rfl | rfl | rfl | rfl | rfl | rfl | rfl <;>
      exact absurd h (by decide)

theorem fence_isPrefixOf_cons {c : Char} {l : Str} (h : c ≠ bq) :
    fence.isPrefixOf (c :: l) = false := by
  cases hp : fence.isPrefixOf (c :: l) with
  | false => rfl
  | true =>
    simp [fence, List.isPrefixOf] at hp
    exact absurd hp.1.symm h

theorem fence_isPrefixOf_append (y : Str) :
    fence.isPrefixOf (fence ++ y) = true := by
  simp [fence, List.isPrefixOf]

theorem removeCodeBlocksGo_succ (k : Nat) (c : Char) (rest : Str) :
    removeCodeBlocksGo (k + 1) (c :: rest) = removeCodeBlocksGo k rest := rfl

theorem removeCodeBlocksGo_zero_cons (c : Char) (rest : Str) :
    removeCodeBlocksGo 0 (c :: rest) =
      if fence.isPrefixOf (c :: rest) then
        (match findFence (rest.drop 2) with
         | some j => removeCodeBlocksGo (j + 5) rest
         | none => c :: rest)
      else c :: removeCodeBlocksGo 0 rest := rfl

theorem removeCodeBlocksGo_skip :
    ∀ (u v : Str), removeCodeBlocksGo u.length (u ++ v) =
      removeCodeBlocksGo 0 v := by
  intro u
  induction u with
  | nil => intro v; rfl
  | cons c u' ih =>
    intro v
    rw [show (c :: u').length = u'.length + 1 from rfl,
      show (c :: u') ++ v = c :: (u' ++ v) from rfl,
      removeCodeBlocksGo_succ]
    exact ih v

theorem removeCodeBlocksGo_no_bq :
    ∀ s : Str, (∀ c ∈ s, c ≠ bq) → removeCodeBlocksGo 0 s = s := by
  intro s
  induction s with
  | nil => intro _; rfl
  | cons c rest ih =>
    intro h
    have hp : fence.isPrefixOf (c :: rest) = false :=
      fence_isPrefixOf_cons (h c (List.mem_cons_self _ _))
    rw [removeCodeBlocksGo_zero_cons,
      if_neg (by simp [hp] : ¬ fence.isPrefixOf (c :: rest) = true),
      ih (fun d hd => h d (List.mem_cons_of_mem _ hd))]

theorem findFence_cons (c : Char) (rest : Str) :
    findFence (c :: rest) =
      if fence.isPrefixOf (c :: rest) then some 0
      else (findFence rest).map (fun n => n + 1) := rfl

theorem findFence_append :
    ∀ (x : Str), (∀ c ∈ x, c ≠ bq) → ∀ y : Str,
      findFence (x ++ (fence ++ y)) = some x.length := by
  intro x
  induction x with
  | nil =>
    intro _ y
    show findFence (fence ++ y) = some 0
    rw [show fence ++ y = bq :: ([bq, bq] ++ y) from rfl, findFence_cons,
      if_pos (show fence.isPrefixOf (bq :: ([bq, bq] ++ y)) = true from
        fence_isPrefixOf_append y)]
  | cons c x' ih =>
    intro h y
    rw [show (c :: x') ++ (fence ++ y) = c :: (x' ++ (fence ++ y)) from rfl,
      findFence_cons,
      if_neg (by
        simp [fence_isPrefixOf_cons (h c (List.mem_cons_self _ _))] :
        ¬ fence.isPrefixOf (c :: (x' ++ (fence ++ y))) = true),
      ih (fun d hd => h d (List.mem_cons_of_mem _ hd)) y]
    rfl

theorem removeCodeBlocks_block :
    ∀ (x : Str), (∀ c ∈ x, c ≠ bq) → ∀ (mid y : Str),
      (∀ c ∈ mid, c ≠ bq) →
      removeCodeBlocksGo 0 (x ++ (fence ++ (mid ++ (fence ++ y)))) =
        x ++ removeCodeBlocksGo 0 y := by
  intro x
  induction x with
  | nil =>
    intro _ mid y hmid
    show removeCodeBlocksGo 0 (fence ++ (mid ++ (fence ++ y))) =
      removeCodeBlocksGo 0 y
    have h1 : fence ++ (mid ++ (fence ++ y)) =
        bq :: (bq :: bq :: (mid ++ (fence ++ y))) := rfl
    rw [h1, removeCodeBlocksGo_zero_cons,
      if_pos (show fence.isPrefixOf (bq :: (bq :: bq :: (mid ++ (fence ++ y))))
          = true from by rw [← h1]; exact fence_isPrefixOf_append _)]
    have h2 : (bq :: bq :: (mid ++ (fence ++ y))).drop 2 =
        mid ++ (fence ++ y) := rfl
    rw [h2, findFence_append mid hmid y]
    show removeCodeBlocksGo (mid.length + 5) (bq :: bq :: (mid ++ (fence ++ y)))
      = removeCodeBlocksGo 0 y
    have hu : (bq :: bq :: (mid ++ fence)).length = mid.length + 5 := by
      simp only [fence, List.length_cons, List.length_append, List.length_nil]
    have hsplit : bq :: bq :: (mid ++ (fence ++ y)) =
        (bq :: bq :: (mid ++ fence)) ++ y := by
      simp [List.append_assoc]
    rw [hsplit, ← hu, removeCodeBlocksGo_skip]
  | cons c x' ih =>
    intro hx mid y hmid
    have hc := hx c (List.mem_cons_self _ _)
    rw [show (c :: x') ++ (fence ++ (mid ++ (fence ++ y))) =
        c :: (x' ++ (fence ++ (mid ++ (fence ++ y)))) from rfl,
      removeCodeBlocksGo_zero_cons,
      if_neg (by simp [fence_isPrefixOf_cons hc] :
        ¬ fence.isPrefixOf (c :: (x' ++ (fence ++ (mid ++ (fence ++ y)))))
          = true),
      ih (fun d hd => hx d (List.mem_cons_of_mem _ hd)) mid y hmid]
    rfl

theorem removeLinksGo_succ (k : Nat) (c : Char) (rest : Str) :
    removeLinksGo (k + 1) (c :: rest) = removeLinksGo k rest := rfl

theorem removeLinksGo_zero_cons (c : Char) (rest : Str) :
    removeLinksGo 0 (c :: rest) =
      if c = '[' then
        (match matchAfterBracket rest with
         | some m => removeLinksGo m rest
         | none => c :: removeLinksGo 0 rest)
      else c :: removeLinksGo 0 rest := rfl

theorem removeLinksGo_skip :
    ∀ (u v : Str), removeLinksGo u.length (u ++ v) = removeLinksGo 0 v := by
  intro u
  induction u with
  | nil => intro v; rfl
  | cons c u' ih =>
    intro v
    rw [show (c :: u').length = u'.length + 1 from rfl,
      show (c :: u') ++ v = c :: (u' ++ v) from rfl, removeLinksGo_succ]
    exact ih v

theorem removeLinksGo_no_bracket :
    ∀ (x : Str), (∀ c ∈ x, c ≠ '[') → ∀ y : Str,
      removeLinksGo 0 (x ++ y) = x ++ removeLinksGo 0 y := by
  intro x
  induction x with
  | nil => intro _ y; rfl
  | cons c x' ih =>
    intro h y
    rw [show (c :: x') ++ y = c :: (x' ++ y) from rfl,
      removeLinksGo_zero_cons, if_neg (h c (List.mem_cons_self _ _)),
      ih (fun d hd => h d (List.mem_cons_of_mem _ hd)) y]
    rfl

theorem linkCloseAt_cons_ne {c : Char} {l : Str} (h : c ≠ ']') :
    linkCloseAt (c :: l) = none := by
  have hp : (str "](http").isPrefixOf (c :: l) = false := by
    cases hp2 : (str "](http").isPrefixOf (c :: l) with
    | false => rfl
    | true =>
      rw [show str "](http" = ']' :: str "(http" from rfl] at hp2
      simp [List.isPrefixOf] at hp2
      exact absurd hp2.1.symm h
  unfold linkCloseAt
  rw [if_neg (by simp [hp])]

theorem matchAfterBracket_cons (c : Char) (rest : Str) :
    matchAfterBracket (c :: rest) =
      match linkCloseAt (c :: rest) with
      | some n => some n
      | none =>
        if c = '\n' then none
        else (matchAfterBracket rest).map (fun n => n + 1) := rfl

theorem matchAfterBracket_word :
    ∀ (w : Str), (∀ c ∈ w, c ≠ ']' ∧ c ≠ '\n') → ∀ t : Str,
      matchAfterBracket (w ++ t) =
        (matchAfterBracket t).map (fun n => n + w.length) := by
  intro w
  induction w with
  | nil =>
    intro _ t
    show matchAfterBracket t = _
    cases matchAfterBracket t with
    | none => rfl
    | some n => simp
  | cons c w' ih =>
    intro h t
    have hc := h c (List.mem_cons_self _ _)
    rw [show (c :: w') ++ t = c :: (w' ++ t) from rfl, matchAfterBracket_cons,
      linkCloseAt_cons_ne hc.1]
    show (if c = '\n' then none
      else (matchAfterBracket (w' ++ t)).map (fun n => n + 1)) = _
    rw [if_neg hc.2, ih (fun d hd => h d (List.mem_cons_of_mem _ hd)) t]
    cases hmb : matchAfterBracket t with
    | none => rfl
    | some n =>
      show some (n + w'.length + 1) = some (n + (c :: w').length)
      rw [List.length_cons]
      exact congrArg some (by omega)

theorem splitlinesAux_no_lb :
    ∀ (a cur : Str), (∀ c ∈ a, isLB c = false) →
      splitlinesAux cur a = [cur.reverse ++ a] := by
  intro a
  induction a with
  | nil => intro cur _; simp [splitlinesAux]
  | cons c a' ih =>
    intro cur h
    have hc : isLB c = false := h c (List.mem_cons_self _ _)
    have hcr : c ≠ '\r' := by
      intro he; rw [he] at hc; exact absurd hc (by decide)
    cases a' with
    | nil =>
      show splitlinesAux cur [c] = [cur.reverse ++ [c]]
      rw [show splitlinesAux cur [c] =
        (if isLB c then [cur.reverse] else [(c :: cur).reverse]) from rfl]
      rw [if_neg (by simp [hc])]
      simp
    | cons c2 a'' =>
      rw [show splitlinesAux cur (c :: c2 :: a'') =
        (if c = '\r' ∧ c2 = '\n' then
          cur.reverse :: (if a'' = [] then [] else splitlinesAux [] a'')
        else if isLB c then cur.reverse :: splitlinesAux [] (c2 :: a'')
        else splitlinesAux (c :: cur) (c2 :: a'')) from rfl]
      rw [if_neg (fun hand => hcr hand.1), if_neg (by simp [hc]),
        ih (c :: cur) (fun d hd => h d (List.mem_cons_of_mem _ hd))]
      simp

theorem splitlinesAux_append_nl :
    ∀ (a cur b : Str), (∀ c ∈ a, isLB c = false) →
      splitlinesAux cur (a ++ '\n' :: b) =
        (cur.reverse ++ a) :: (if b = [] then [] else splitlinesAux [] b) := by
  intro a
  induction a with
  | nil =>
    intro cur b _
    cases b with
    | nil =>
      show splitlinesAux cur ['\n'] = (cur.reverse ++ []) :: []
      rw [show splitlinesAux cur ['\n'] =
        (if isLB '\n' then [cur.reverse] else [('\n' :: cur).reverse]) from rfl]
      rw [if_pos (by decide)]
      simp
    | cons b0 b' =>
      show splitlinesAux cur ('\n' :: b0 :: b') = _
      rw [show splitlinesAux cur ('\n' :: b0 :: b') =
        (if ('\n' : Char) = '\r' ∧ b0 = '\n' then
          cur.reverse :: (if b' = [] then [] else splitlinesAux [] b')
        else if isLB '\n' then cur.reverse :: splitlinesAux [] (b0 :: b')
        else splitlinesAux ('\n' :: cur) (b0 :: b')) from rfl]
      rw [if_neg (fun hand => by cases hand.1), if_pos (by decide)]
      simp
  | cons c a' ih =>
    intro cur b h
    have hc : isLB c = false := h c (List.mem_cons_self _ _)
    have hcr : c ≠ '\r' := by
      intro he; rw [he] at hc; exact absurd hc (by decide)
    have htail : ∀ d ∈ a', isLB d = false :=
      fun d hd => h d (List.mem_cons_of_mem _ hd)
    cases a' with
    | nil =>
      show splitlinesAux cur (c :: '\n' :: b) = _
      rw [show splitlinesAux cur (c :: '\n' :: b) =
        (if c = '\r' ∧ ('\n' : Char) = '\n' then
          cur.reverse :: (if b = [] then [] else splitlinesAux [] b)
        else if isLB c then cur.reverse :: splitlinesAux [] ('\n' :: b)
        else splitlinesAux (c :: cur) ('\n' :: b)) from rfl]
      rw [if_neg (fun hand => hcr hand.1), if_neg (by simp [hc])]
      have := ih (c :: cur) b (fun d hd => by cases hd)
      rw [show ([] : Str) ++ '\n' :: b = '\n' :: b from rfl] at this
      rw [this]
      simp
    | cons c2 a'' =>
      show splitlinesAux cur (c :: (c2 :: a'' ++ '\n' :: b)) = _
      rw [show splitlinesAux cur (c :: (c2 :: a'' ++ '\n' :: b)) =
        (if c = '\r' ∧ c2 = '\n' then
          cur.reverse ::
            (if a'' ++ '\n' :: b = [] then []
             else splitlinesAux [] (a'' ++ '\n' :: b))
        else if isLB c then
          cur.reverse :: splitlinesAux [] (c2 :: a'' ++ '\n' :: b)
        else splitlinesAux (c :: cur) (c2 :: a'' ++ '\n' :: b)) from rfl]
      rw [if_neg (fun hand => hcr hand.1), if_neg (by simp [hc]),
        ih (c :: cur) b htail]
      simp

theorem splitlines_append_nl (a b : Str) (h : ∀ c ∈ a, isLB c = false) :
    splitlines (a ++ '\n' :: b) = a :: splitlines b := by
  have h2 : splitlines (a ++ '\n' :: b) = splitlinesAux [] (a ++ '\n' :: b) := by
    cases a with
    | nil => rfl
    | cons c a' => rfl
  rw [h2, splitlinesAux_append_nl a [] b h]
  simp only [List.reverse_nil, List.nil_append]
  congr 1
  cases b with
  | nil => rfl
  | cons b0 b' => rfl

theorem splitlines_no_lb (a : Str) (h : ∀ c ∈ a, isLB c = false)
    (ha : a ≠ []) : splitlines a = [a] := by
  cases a with
  | nil => exact absurd rfl ha
  | cons c a' =>
    rw [show splitlines (c :: a') = splitlinesAux [] (c :: a') from rfl,
      splitlinesAux_no_lb (c :: a') [] h]
    simp

/-- A word-count input holding one fenced code block (content `w1`),
one reference-declaration line (text `w2`), and one `http` Markdown link
(text `w3`), surrounded by the plain words alpha, beta, gamma; read it as
`"alpha ```w1```\n[^id]: w2\nbeta [w3](http://u) gamma"`. -/
def wcSample (w1 w2 w3 : Str) : Str :=
  str "alpha " ++ (fence ++ (w1 ++ (fence ++ (str "\n[^id]: " ++
    (w2 ++ (str "\nbeta [" ++ (w3 ++ str "](http://u) gamma")))))))

/-- Claim C8 (confirmed): for any alphabetic filler words, the word
count of `wcSample` is exactly 3 (alpha, beta, gamma): every token of
the fenced code block (with its delimiters), of the whole declaration
line, and of the `[text](http...)` span is excluded, while the text
around them is kept. -/
theorem count_words_excludes_constructs (w1 w2 w3 : Str)
    (h1 : ∀ c ∈ w1, c.isAlpha = true)
    (h2 : ∀ c ∈ w2, c.isAlpha = true) (h2n : w2 ≠ [])
    (h3 : ∀ c ∈ w3, c.isAlpha = true) :
    count_words (wcSample w1 w2 w3) = .ok 3 := by
  have hw1bq : ∀ c ∈ w1, c ≠ bq := fun c hc => alpha_ne_char (h1 c hc) (by decide)
  have hy0bq : ∀ c ∈ str "\n[^id]: " ++
      (w2 ++ (str "\nbeta [" ++ (w3 ++ str "](http://u) gamma"))), c ≠ bq := by
    intro c hc
    rcases List.mem_append.mp hc with hc | hc
    · exact (by decide : ∀ x ∈ str "\n[^id]: ", x ≠ bq) c hc
    rcases List.mem_append.mp hc with hc | hc
    · exact alpha_ne_char (h2 c hc) (by decide)
    rcases List.mem_append.mp hc with hc | hc
    · exact (by decide : ∀ x ∈ str "\nbeta [", x ≠ bq) c hc
    rcases List.mem_append.mp hc with hc | hc
    · exact alpha_ne_char (h3 c hc) (by decide)
    · exact (by decide : ∀ x ∈ str "](http://u) gamma", x ≠ bq) c hc
  have hA : removeCodeBlocks (wcSample w1 w2 w3) =
      str "alpha " ++ (str "\n[^id]: " ++
        (w2 ++ (str "\nbeta [" ++ (w3 ++ str "](http://u) gamma")))) := by
    show removeCodeBlocksGo 0 (str "alpha " ++ (fence ++ (w1 ++ (fence ++
      (str "\n[^id]: " ++
        (w2 ++ (str "\nbeta [" ++ (w3 ++ str "](http://u) gamma")))))))) = _
    rw [removeCodeBlocks_block (str "alpha ") (by decide) w1
        (str "\n[^id]: " ++
          (w2 ++ (str "\nbeta [" ++ (w3 ++ str "](http://u) gamma")))) hw1bq,
      removeCodeBlocksGo_no_bq _ hy0bq]
  have hA2lb : ∀ c ∈ str "[^id]: " ++ w2, isLB c = false := by
    intro c hc
    rcases List.mem_append.mp hc with hc | hc
    · exact (by decide : ∀ x ∈ str "[^id]: ", isLB x = false) c hc
    · exact alpha_not_lb (h2 c hc)
  have hL3lb : ∀ c ∈ str "beta [" ++ (w3 ++ str "](http://u) gamma"),
      isLB c = false := by
    intro c hc
    rcases List.mem_append.mp hc with hc | hc
    · exact (by decide : ∀ x ∈ str "beta [", isLB x = false) c hc
    rcases List.mem_append.mp hc with hc | hc
    · exact alpha_not_lb (h3 c hc)
    · exact (by decide : ∀ x ∈ str "](http://u) gamma", isLB x = false) c hc
  have hL3ne : str "beta [" ++ (w3 ++ str "](http://u) gamma") ≠ [] := by
    show ('b' :: (str "eta [" ++ (w3 ++ str "](http://u) gamma"))) ≠ []
    exact List.cons_ne_nil _ _
  have hsl : splitlines (removeCodeBlocks (wcSample w1 w2 w3)) =
      [str "alpha ", str "[^id]: " ++ w2,
       str "beta [" ++ (w3 ++ str "](http://u) gamma")] := by
    rw [hA]
    have e1 : str "alpha " ++ (str "\n[^id]: " ++
        (w2 ++ (str "\nbeta [" ++ (w3 ++ str "](http://u) gamma")))) =
        str "alpha " ++ ('\n' :: (str "[^id]: " ++
          (w2 ++ (str "\nbeta [" ++ (w3 ++ str "](http://u) gamma"))))) := rfl
    rw [e1, splitlines_append_nl (str "alpha ") _ (by decide)]
    congr 1
    have e2 : str "[^id]: " ++
        (w2 ++ (str "\nbeta [" ++ (w3 ++ str "](http://u) gamma"))) =
        (str "[^id]: " ++ w2) ++
          ('\n' :: (str "beta [" ++ (w3 ++ str "](http://u) gamma"))) :=
      (List.append_assoc (str "[^id]: ") w2
        ('\n' :: (str "beta [" ++ (w3 ++ str "](http://u) gamma")))).symm
    rw [e2, splitlines_append_nl (str "[^id]: " ++ w2) _ hA2lb]
    congr 1
    exact splitlines_no_lb _ hL3lb hL3ne
  have hft2 : firstTok (str "[^id]: " ++ w2) = str "[^id]:" := rfl
  have hat2 : afterTok (str "[^id]: " ++ w2) = ' ' :: w2 := rfl
  have hps2 : pySplit (str "[^id]: " ++ w2) =
      str "[^id]:" :: pySplit (' ' :: w2) := by
    rw [pySplit_eq, hft2, hat2, if_neg (by decide : ¬ str "[^id]:" = ([] : Str))]
  have hsp2 : pySplit (' ' :: w2) = pySplit w2 := rfl
  have hw2ne : pySplit w2 ≠ [] := by
    rw [pySplit_eq]
    have hft : firstTok w2 ≠ [] := by
      intro hft
      have hall := (firstTok_nil_iff w2).mp hft
      rcases hw2 : w2 with _ | ⟨d, w2'⟩
      · exact h2n hw2
      · have hsp := hall d (by rw [hw2]; exact List.mem_cons_self _ _)
        have hda : isSpace d = false :=
          alpha_not_space (h2 d (by rw [hw2]; exact List.mem_cons_self _ _))
        rw [hda] at hsp
        cases hsp
    rw [if_neg hft]
    simp
  have hval2 : is_reference_line (str "[^id]: " ++ w2) = .ok true := by
    rcases hx : pySplit w2 with _ | ⟨t0, ts⟩
    · exact absurd hx hw2ne
    · have hps : pySplit (str "[^id]: " ++ w2) = str "[^id]:" :: t0 :: ts := by
        rw [hps2, hsp2, hx]
      have hop : declOpener (str "[^id]:") = true := by decide
      simp [is_reference_line, hps, hop]
  have hft3 : firstTok (str "beta [" ++ (w3 ++ str "](http://u) gamma")) =
      str "beta" := rfl
  have hps3 : pySplit (str "beta [" ++ (w3 ++ str "](http://u) gamma")) =
      str "beta" ::
        pySplit (afterTok (str "beta [" ++ (w3 ++ str "](http://u) gamma"))) := by
    rw [pySplit_eq, hft3, if_neg (by decide : ¬ str "beta" = ([] : Str))]
  have hval3 : is_reference_line
      (str "beta [" ++ (w3 ++ str "](http://u) gamma")) = .ok false := by
    have hop3 : declOpener (str "beta") = false := by decide
    simp [is_reference_line, hps3, hop3]
  have hfil : filterRefLines [str "alpha ", str "[^id]: " ++ w2,
      str "beta [" ++ (w3 ++ str "](http://u) gamma")] =
      .ok [str "alpha ", str "beta [" ++ (w3 ++ str "](http://u) gamma")] := by
    have hv1 : is_reference_line (str "alpha ") = .ok false := rfl
    simp [filterRefLines, hv1, hval2, hval3]
  have hw3cond : ∀ c ∈ w3, c ≠ ']' ∧ c ≠ '\n' := fun c hc =>
    ⟨alpha_ne_char (h3 c hc) (by decide), alpha_ne_char (h3 c hc) (by decide)⟩
  have hmab : matchAfterBracket (w3 ++ str "](http://u) gamma") =
      some (11 + w3.length) := by
    rw [matchAfterBracket_word w3 hw3cond (str "](http://u) gamma"),
      show matchAfterBracket (str "](http://u) gamma") = some 11 from rfl]
    rfl
  have hlen : (w3 ++ str "](http://u)").length = 11 + w3.length := by
    rw [List.length_append, show (str "](http://u)").length = 11 from rfl]
    omega
  have hrl : removeLinks (joinNl [str "alpha ",
      str "beta [" ++ (w3 ++ str "](http://u) gamma")]) =
      str "alpha \nbeta " ++ str " gamma" := by
    have e3 : joinNl [str "alpha ",
        str "beta [" ++ (w3 ++ str "](http://u) gamma")] =
        str "alpha \nbeta " ++ ('[' :: (w3 ++ str "](http://u) gamma")) := rfl
    rw [e3]
    show removeLinksGo 0 (str "alpha \nbeta " ++
      ('[' :: (w3 ++ str "](http://u) gamma"))) = _
    rw [removeLinksGo_no_bracket (str "alpha \nbeta ") (by decide)
        ('[' :: (w3 ++ str "](http://u) gamma")),
      removeLinksGo_zero_cons, if_pos rfl, hmab]
    show str "alpha \nbeta " ++
      removeLinksGo (11 + w3.length) (w3 ++ str "](http://u) gamma") = _
    have hsplit2 : w3 ++ str "](http://u) gamma" =
        (w3 ++ str "](http://u)") ++ str " gamma" :=
      (List.append_assoc w3 (str "](http://u)") (str " gamma")).symm
    rw [hsplit2, ← hlen, removeLinksGo_skip,
      show removeLinksGo 0 (str " gamma") = str " gamma" from rfl]
  unfold count_words
  rw [hsl, hfil]
  show Except.ok (countTokens (removeLinks (joinNl [str "alpha ",
    str "beta [" ++ (w3 ++ str "](http://u) gamma")]))) = .ok 3
  rw [hrl]
  rfl

/-- Witness for claim C8 at concrete filler words. -/
theorem count_words_excludes_constructs_witness :
    count_words (wcSample (str "code") (str "reftext") (str "linktext")) =
      .ok 3 :=
  count_words_excludes_constructs (str "code") (str "reftext") (str "linktext")
    (by decide) (by decide) (by decide) (by decide)
